import Mathlib

/-!
Verification development for the core execution engine (the scheduler in
`tawazi/_dag/helpers.py`).  The scheduler loop, its helper functions and the
error handler are embedded from the source; the collaborators that the source
file only imports (the working graph `DiGraphEx`, the node record `ExecNode`,
the error strategy enumeration) are modelled from the specification, since
their own source is not part of the file set.

Machine reals (the monotonic clock, per-node timeouts) are embedded as
integers; the worker pool's asynchronous completions are driven by an explicit
per-iteration oracle, so every run of the model is a concrete, decidable
trace, while theorems quantifying over all oracles cover every interleaving
the discretisation can distinguish.
-/

namespace Tawazi

/-- Node identifiers, opaque in the source; embedded as naturals. -/
abbrev Ident := Nat

/-- Modelled from the spec: the `active` field is "either a constant boolean,
or a reference to another node id whose result is evaluated as truthy". -/
inductive ActiveSpec where
  | lit (b : Bool)
  | ref (r : Ident)
deriving DecidableEq

/-- Modelled from the spec: the error-propagation policy
{`strict`, `permissive`, `all_children`}; the `unknown` constructor stands for
any value outside the documented set (the Python annotation is not enforced
at runtime, and `handle_exception` has an explicit branch for this case). -/
inductive ErrorStrategy where
  | strict
  | permissive
  | all_children
  | unknown (code : Nat)
deriving DecidableEq

/-- Modelled from the spec: the node record (`ExecNode`, whose own module is
not in the file set).  `runRaises`/`runValue` model the opaque user `run`
closure: it either raises, or returns a value which the worker writes into
the node's `result` slot.  Results are embedded as integers, with `none`
standing for the "no value" sentinel. -/
structure ExecNode where
  id : Ident
  priority : Int
  compound_priority : Int
  is_sequential : Bool
  timeout : Option Int
  setup : Bool
  active : ActiveSpec
  executed : Bool
  result : Option Int
  runRaises : Bool
  runValue : Int
deriving DecidableEq

/-- The node table: id to node record, as an insertion-ordered list, matching
the Python dict. -/
abbrev Table := List (Ident × ExecNode)

def defaultXN : ExecNode :=
  ⟨0, 0, 0, false, none, false, .lit true, false, none, false, 0⟩

def lookupNode : Table → Ident → Option ExecNode
  | [], _ => none
  | (k, v) :: r, i => if k = i then some v else lookupNode r i

def getNode (t : Table) (i : Ident) : ExecNode :=
  (lookupNode t i).getD defaultXN

/-- Modelled from the spec: the mutable working graph over node ids, edges
pointing from dependency to dependent (`DiGraphEx`, whose own module is not
in the file set). -/
structure DiGraphEx where
  nodes : List Ident
  edges : List (Ident × Ident)
deriving DecidableEq

/-- Modelled from the spec: `roots()` — all ids with no remaining
predecessor. -/
def root_nodes (g : DiGraphEx) : List Ident :=
  g.nodes.filter (fun n => decide (∀ e ∈ g.edges, e.2 ≠ n))

/-- Modelled from the spec: `remove(id)` — deletes the node and its incident
edges. -/
def remove_node (g : DiGraphEx) (i : Ident) : DiGraphEx :=
  ⟨g.nodes.filter (fun n => decide (n ≠ i)),
   g.edges.filter (fun e => decide (e.1 ≠ i ∧ e.2 ≠ i))⟩

/-- Modelled from the spec: `successors(id)` — direct dependents. -/
def successors (g : DiGraphEx) (i : Ident) : List Ident :=
  (g.edges.filter (fun e => decide (e.1 = i))).map (·.2)

/-- One saturation round: targets of edges leaving the set `S`. -/
def succFrontier (g : DiGraphEx) (S : List Ident) : List Ident :=
  (g.edges.filter (fun e => decide (e.1 ∈ S ∧ e.2 ∉ S))).map (·.2)

/-- Fuelled saturation of a set of ids under the edge relation. -/
def saturate (g : DiGraphEx) : Nat → List Ident → List Ident
  | 0, S => S
  | f + 1, S =>
    let T := succFrontier g S
    if T = [] then S else saturate g f (S ++ T)

/-- Enough fuel to saturate: one more than the number of distinct edge
targets. -/
def satFuel (g : DiGraphEx) : Nat :=
  (g.edges.map (·.2)).toFinset.card + 1

/-- The set of ids transitively reachable from `i` (including `i`). -/
def reachClosure (g : DiGraphEx) (i : Ident) : List Ident :=
  saturate g (satFuel g) [i]

/-- Modelled from the spec: `remove_recursively(id)` — removes the id and
every transitive dependent (computed in the current graph). -/
def remove_recursively (g : DiGraphEx) (i : Ident) : DiGraphEx :=
  let R := reachClosure g i
  ⟨g.nodes.filter (fun n => decide (n ∉ R)),
   g.edges.filter (fun e => decide (e.1 ∉ R ∧ e.2 ∉ R))⟩

/-- The edge relation of a graph, as a proposition. -/
@[reducible]
def edgeRel (g : DiGraphEx) (a b : Ident) : Prop := (a, b) ∈ g.edges

/-- Scheduler errors surfaced by the embedded `execute`.  `userError` is the
re-raised node exception of the `strict` policy; `tawaziTimeoutError` carries
the still-pending ids and the waited budget; `configurationError` is the
spec's name for the error kind raised on an unrecognized `error_strategy`
(the source raises `NotImplementedError` there). -/
inductive TErr where
  | userError (id_ : Ident)
  | tawaziTimeoutError (pending : List Ident) (budget : Option Int)
  | configurationError
deriving DecidableEq

/-! ## Functions embedded from `tawazi/_dag/helpers.py` -/

/-- Embeds `_xn_active_in_call` (helpers.py lines 14-17): a literal boolean is
used directly; a reference is resolved through the node table and its result
evaluated for truthiness.  Modelled from the spec for the "no value" case:
an absent result is falsy. -/
def xn_active_in_call (xn : ExecNode) (xns_dict : Table) : Bool :=
  match xn.active with
  | .lit b => b
  | .ref r => match (getNode xns_dict r).result with
    | none => false
    | some v => decide (v ≠ 0)

/-- A shallow copy of a node record (Python's `copy.copy`): the same record,
rebuilt field by field. -/
def copyNode (n : ExecNode) : ExecNode :=
  ⟨n.id, n.priority, n.compound_priority, n.is_sequential, n.timeout, n.setup,
   n.active, n.executed, n.result, n.runRaises, n.runValue⟩

/-- Embeds `copy_non_setup_xns` (helpers.py lines 20-39): setup nodes are
shared by reference, every other node is shallow-copied. -/
def copy_non_setup_xns (x_nodes : Table) : Table :=
  x_nodes.map (fun p => (p.1, if p.2.setup then p.2 else copyNode p.2))

/-- Embeds `get_num_running_threads` (helpers.py lines 47-50): the number of
submitted futures that are not yet done. -/
def get_num_running_threads (futures doneIds : List Ident) : Nat :=
  (futures.filter (fun i => decide (i ∉ doneIds))).length

/-- The maximum over the priorities of a nonempty node list (Python's `max`
over a generator); `0` for the empty list, on which the source would raise. -/
def maxPriority : List ExecNode → Int
  | [] => 0
  | n :: ns => ns.foldl (fun a m => max a m.priority) n.priority

/-- Embeds `get_highest_priority_nodes` (helpers.py lines 53-55). -/
def get_highest_priority_nodes (nodes : List ExecNode) : List ExecNode :=
  nodes.filter (fun m => decide (m.priority = maxPriority nodes))

/-- Stable insertion of a node into a list ascending by `compound_priority`;
an earlier element goes before later elements with an equal key. -/
def insertCP (x : ExecNode) : List ExecNode → List ExecNode
  | [] => [x]
  | y :: ys =>
    if x.compound_priority ≤ y.compound_priority then x :: y :: ys
    else y :: insertCP x ys

/-- Stable ascending sort by `compound_priority` (Python's stable
`list.sort(key=...)`; stable sorts of a list under a total preorder agree). -/
def sortCP : List ExecNode → List ExecNode
  | [] => []
  | x :: xs => insertCP x (sortCP xs)

/-- The scheduler's pick (helpers.py lines 200-206): restrict to the nodes of
highest `priority`, sort ascending by `compound_priority` (stable), take the
last. -/
def pickNode (rxns : List ExecNode) : ExecNode :=
  (sortCP (get_highest_priority_nodes rxns)).getLastD defaultXN

/-- The running minimum of a list (the source's `float("inf")` sentinel
becomes `none`). -/
def minList? : List Int → Option Int :=
  List.foldl (fun a x => match a with
    | none => some x
    | some m => some (min m x)) none

/-- Embeds `get_next_timeout` (helpers.py lines 58-90): over the submitted,
not-yet-done futures whose node has a configured `timeout`, take the minimum
of `launch_time + timeout` and subtract the current monotonic reading
(`now`); `none` when no such future exists. -/
def get_next_timeout (futures_launch_time : List (Ident × Int))
    (futures doneIds : List Ident) (xns_dict : Table) (now : Int) :
    Option Int :=
  let cands := (futures.filter (fun i => decide (i ∉ doneIds))).filterMap
    (fun i => ((getNode xns_dict i).timeout).map
      (fun t => ((futures_launch_time.lookup i).getD 0) + t))
  match minList? cands with
  | none => none
  | some m => some (m - now)

/-- The candidate deadlines of `get_next_timeout`: `launch_time + timeout`
over the submitted, not-yet-done futures with a configured timeout. -/
def timeoutCands (futures_launch_time : List (Ident × Int))
    (futures doneIds : List Ident) (xns_dict : Table) : List Int :=
  (futures.filter (fun i => decide (i ∉ doneIds))).filterMap
    (fun i => ((getNode xns_dict i).timeout).map
      (fun t => ((futures_launch_time.lookup i).getD 0) + t))

/-- Embeds `raise_timeout_error_conditionally` (helpers.py lines 93-100):
an empty completed set means the timeout was reached. -/
def raise_timeout_error_conditionally (done_ pending : List Ident)
    (next_timeout : Option Int) : Except TErr Unit :=
  if done_ = [] then .error (.tawaziTimeoutError pending next_timeout)
  else .ok ()

/-- Embeds `handle_exception` (helpers.py lines 260-298): `strict` re-raises
a carried error; `permissive` logs and continues; `all_children` removes
every direct successor recursively (the node itself is removed by the
caller); any other value raises (spec kind: `configurationError`). -/
def handle_exception (behavior : ErrorStrategy) (graph : DiGraphEx)
    (errored : Bool) (id_ : Ident) : Except TErr DiGraphEx :=
  match behavior with
  | .strict => if errored then .error (.userError id_) else .ok graph
  | .permissive => .ok graph
  | .all_children =>
    if errored then .ok ((successors graph id_).foldl remove_recursively graph)
    else .ok graph
  | .unknown _ => if errored then .error .configurationError else .ok graph

/-! ## The scheduler state machine (`execute`, helpers.py lines 106-257) -/

/-- The per-invocation scheduler state: the working graph, the per-invocation
node table, the futures table in submission order, the set of completed
futures, the `running` and `done` variables of the source, the launch times,
and the `runnable_xns_ids` variable (which persists across loop
iterations). -/
structure SchedState where
  graph : DiGraphEx
  xns : Table
  futures : List Ident
  doneIds : List Ident
  runningVar : List Ident
  doneVar : List Ident
  launch : List (Ident × Int)
  runnable : List Ident
deriving DecidableEq

/-- One loop iteration's external events: completion batches delivered by the
worker pool before each point where the coordinator observes future state
(`d0` before the saturation check, `dW` during the blocking wait, `d1` before
the reap loop, `d2` before the sequentiality pre-check, `dP` during the
pre-wait, `d3` before the activation check, `dQ` during the post-wait), and
the monotonic clock readings returned at each `monotonic()` call (`tW`, `tP`,
`tS`, `tQ`). -/
structure IterOracle where
  d0 : List Ident
  tW : Int
  dW : List Ident
  d1 : List Ident
  d2 : List Ident
  tP : Int
  dP : List Ident
  d3 : List Ident
  tS : Int
  tQ : Int
  dQ : List Ident
deriving DecidableEq

/-- The arguments of `execute` (helpers.py lines 106-114).  `call_id` is
omitted: it only prefixes worker thread names. -/
structure Config where
  node_dict : Table
  max_concurrency : Nat
  behavior : ErrorStrategy
  graph : DiGraphEx
  modified_node_dict : Option Table
deriving DecidableEq

/-- A worker finishing: each newly completed submitted future is added to the
done set, and — when its `run` did not raise — its value is written into the
node's `result` slot in the shared table. -/
def applyDone (dlt : List Ident) (s : SchedState) : SchedState :=
  let newly := dlt.filter (fun i => decide (i ∈ s.futures ∧ i ∉ s.doneIds))
  { s with
    doneIds := s.doneIds ++ newly
    xns := s.xns.map (fun p =>
      if decide (p.1 ∈ newly) && !p.2.runRaises then
        (p.1, { p.2 with result := some p.2.runValue })
      else p) }

/-- Step 6 of the loop (helpers.py lines 162-176): if the pool is saturated
or no runnable node exists, wait for a first completion under the aggregated
deadline, raising on an empty completed set; `done` is extended, `running`
shrunk. -/
def blockPhase (cfg : Config) (o : IterOracle) (s : SchedState) :
    Except TErr SchedState :=
  let s0 := applyDone o.d0 s
  if get_num_running_threads s0.futures s0.doneIds = cfg.max_concurrency ∨
      s0.runnable.length = 0 then
    let nt := get_next_timeout s0.launch s0.futures s0.doneIds s0.xns o.tW
    let s1 := applyDone o.dW s0
    let dn := s1.runningVar.filter (fun i => decide (i ∈ s1.doneIds))
    let pend := s1.runningVar.filter (fun i => decide (i ∉ s1.doneIds))
    match raise_timeout_error_conditionally dn pend nt with
    | .error e => .error e
    | .ok _ => .ok { s1 with runningVar := pend, doneVar := s1.doneVar ++ dn }
  else .ok s0

/-- The reap loop (helpers.py lines 182-186), folded over the futures table
in submission order: each done future still in the graph goes through the
error handler, then its node is removed. -/
def reapList (behavior : ErrorStrategy) (xns : Table) (doneIds : List Ident) :
    List Ident → DiGraphEx → Except TErr DiGraphEx
  | [], g => .ok g
  | i :: rest, g =>
    if i ∈ doneIds ∧ i ∈ g.nodes then
      match handle_exception behavior g (getNode xns i).runRaises i with
      | .error e => .error e
      | .ok g' => reapList behavior xns doneIds rest (remove_node g' i)
    else reapList behavior xns doneIds rest g

def reapPhase (cfg : Config) (s : SchedState) : Except TErr SchedState :=
  (reapList cfg.behavior s.xns s.doneIds s.futures s.graph).map
    (fun g => { s with graph := g })

/-- Step 2 of the loop (helpers.py line 189): the roots of the working graph
that are not already submitted. -/
def readySet (g : DiGraphEx) (futures : List Ident) : List Ident :=
  (root_nodes g).filter (fun i => decide (i ∉ futures))

def refreshPhase (s : SchedState) : SchedState :=
  { s with runnable := readySet s.graph s.futures }

/-- Steps 6, 1 and 2 of an iteration: block if saturated, reap, refresh the
ready set. -/
def prepPhase (cfg : Config) (o : IterOracle) (s : SchedState) :
    Except TErr SchedState :=
  (blockPhase cfg o s).bind
    (fun s1 => (reapPhase cfg (applyDone o.d1 s1)).map refreshPhase)

/-- The sequentiality pre-wait (helpers.py lines 215-228): wait for a first
completion, raise on an empty completed set, and go back to the top of the
loop (the `done` variable is not extended here, matching the source). -/
def seqPreWait (o : IterOracle) (s4 : SchedState) : Except TErr SchedState :=
  let nt := get_next_timeout s4.launch s4.futures s4.doneIds s4.xns o.tP
  let s5 := applyDone o.dP s4
  let dn := s5.runningVar.filter (fun i => decide (i ∈ s5.doneIds))
  let pend := s5.runningVar.filter (fun i => decide (i ∉ s5.doneIds))
  match raise_timeout_error_conditionally dn pend nt with
  | .error e => .error e
  | .ok _ => .ok { s5 with runningVar := pend }

/-- Submission (helpers.py lines 236-240): record the handle, add it to
`running`, record the launch time. -/
def submitStep (o : IterOracle) (xn : ExecNode) (s : SchedState) :
    SchedState :=
  { s with
    futures := s.futures ++ [xn.id]
    runningVar := s.runningVar ++ [xn.id]
    launch := s.launch ++ [(xn.id, o.tS)] }

/-- The sequentiality post-wait (helpers.py lines 242-255): wait on all
futures ever submitted (`futures.values()`), raise only when the completed
set is empty, reassign `running` to the not-done subset. -/
def seqPostWait (o : IterOracle) (s6 : SchedState) : Except TErr SchedState :=
  let nt := get_next_timeout s6.launch s6.futures s6.doneIds s6.xns o.tQ
  let s7 := applyDone o.dQ s6
  let dn := s7.futures.filter (fun i => decide (i ∈ s7.doneIds))
  let pend := s7.futures.filter (fun i => decide (i ∉ s7.doneIds))
  match raise_timeout_error_conditionally dn pend nt with
  | .error e => .error e
  | .ok _ => .ok { s7 with runningVar := pend }

/-- Steps 3, 4 and 5 of an iteration (helpers.py lines 193-255): loop if no
runnable node, pick the most prioritized runnable node, pre-wait if it is
sequential and something is running, prune it if inactive, otherwise submit
it and post-wait if it is sequential. -/
def dispatchPhase (cfg : Config) (o : IterOracle) (s3 : SchedState) :
    Except TErr SchedState :=
  if s3.runnable.length = 0 then .ok s3
  else
    let rxns := s3.runnable.map (getNode s3.xns)
    let xn := pickNode rxns
    let s4 := applyDone o.d2 s3
    if xn.is_sequential = true ∧
        get_num_running_threads s4.futures s4.doneIds ≠ 0 then
      seqPreWait o s4
    else
      let s5 := applyDone o.d3 s4
      if xn_active_in_call xn s5.xns = false then
        .ok { s5 with graph := remove_recursively s5.graph xn.id }
      else
        let s6 := submitStep o xn s5
        if xn.is_sequential = true then seqPostWait o s6 else .ok s6

/-- One full iteration of the scheduler's `while` loop. -/
def iterBody (cfg : Config) (o : IterOracle) (s : SchedState) :
    Except TErr SchedState :=
  (prepPhase cfg o s).bind (dispatchPhase cfg o)

/-- The outcome of a run of the model: normal termination with the final node
table, an abort with an error, or exhaustion of the supplied oracle. -/
inductive RunResult where
  | finished (xns : Table)
  | failed (e : TErr)
  | outOfOracle (s : SchedState)
deriving DecidableEq

/-- The scheduler loop: iterate while the working graph is nonempty. -/
def runSched (cfg : Config) : List IterOracle → SchedState → RunResult
  | [], s => if s.graph.nodes.length = 0 then .finished s.xns else .outOfOracle s
  | o :: os, s =>
    if s.graph.nodes.length = 0 then .finished s.xns
    else match iterBody cfg o s with
      | .error e => .failed e
      | .ok s' => runSched cfg os s'

/-- The successive states produced by the loop (one entry per completed
iteration). -/
def runStates (cfg : Config) : List IterOracle → SchedState → List SchedState
  | [], _ => []
  | o :: os, s =>
    if s.graph.nodes.length = 0 then []
    else match iterBody cfg o s with
      | .error _ => []
      | .ok s' => s' :: runStates cfg os s'

/-- Embeds `modified_node_dict or copy_non_setup_xns(node_dict)`
(helpers.py line 135): Python's `or` falls through on a falsy left operand,
and an empty dict is falsy. -/
def pyOrTable (m : Option Table) (fb : Table) : Table :=
  match m with
  | none => fb
  | some d => if d.length = 0 then fb else d

def initXns (cfg : Config) : Table :=
  pyOrTable cfg.modified_node_dict (copy_non_setup_xns cfg.node_dict)

/-- The initialisation of `execute` (helpers.py lines 132-150): build the
per-invocation table, prune the ids whose entry is already executed, reset
the bookkeeping, compute the initial runnable set. -/
def initState (cfg : Config) : SchedState :=
  let xns := initXns cfg
  let pre := cfg.graph.nodes.filter (fun i => (getNode xns i).executed)
  let g := pre.foldl remove_node cfg.graph
  { graph := g, xns := xns, futures := [], doneIds := [], runningVar := [],
    doneVar := [], launch := [], runnable := root_nodes g }

/-- The embedded `execute`: initialise, then run the loop under the supplied
oracle. -/
def execute (cfg : Config) (os : List IterOracle) : RunResult :=
  runSched cfg os (initState cfg)

/-- The final node table of a normally-terminated run (the empty table
otherwise). -/
def finishedWith : RunResult → Table
  | .finished t => t
  | _ => []

/-! ## The scheduler invariant -/

/-- The graph part of the scheduler invariant, relative to the invocation's
entry graph `cfg.graph` and entry table `initXns cfg`, for a given futures
table `fut` and done set `don`:

* `e1`/`e2`: the working graph's edges are exactly the entry edges whose two
  endpoints are still present;
* `kinv`: a dependency absent from the working graph while its dependent is
  still present was either pre-executed at entry, or was submitted and its
  future is done;
* `noInc`: a submitted node has no incoming edge left in the working graph;
* `gsub`: the working graph's nodes come from the entry graph. -/
structure GInv (cfg : Config) (fut don : List Ident) (g : DiGraphEx) :
    Prop where
  e1 : ∀ e ∈ g.edges, e ∈ cfg.graph.edges ∧ e.1 ∈ g.nodes ∧ e.2 ∈ g.nodes
  e2 : ∀ e ∈ cfg.graph.edges, e.1 ∈ g.nodes → e.2 ∈ g.nodes → e ∈ g.edges
  kinv : ∀ e ∈ cfg.graph.edges, e.2 ∈ g.nodes →
    e.1 ∈ g.nodes ∨ (getNode (initXns cfg) e.1).executed = true ∨
    (e.1 ∈ fut ∧ e.1 ∈ don)
  noInc : ∀ d ∈ fut, ∀ e ∈ g.edges, e.2 ≠ d
  gsub : ∀ i ∈ g.nodes, i ∈ cfg.graph.nodes

/-- The invariant maintained by the scheduler loop: the graph invariant,
plus

* `minv`: every dependency of a submitted node was pre-executed at entry, or
  was submitted, completed and reaped;
* `doneSub`: only submitted futures are done;
* `idsOk`: the node record found in the table under an id of the working
  graph carries that id. -/
structure InvS (cfg : Config) (t : SchedState) : Prop where
  ginv : GInv cfg t.futures t.doneIds t.graph
  minv : ∀ n ∈ t.futures, ∀ e ∈ cfg.graph.edges, e.2 = n →
    (getNode (initXns cfg) e.1).executed = true ∨
    (e.1 ∈ t.futures ∧ e.1 ∈ t.doneIds ∧ e.1 ∉ t.graph.nodes)
  doneSub : ∀ i ∈ t.doneIds, i ∈ t.futures
  idsOk : ∀ i ∈ t.graph.nodes, (getNode t.xns i).id = i

/-! ## Concrete instances used by counterexamples and witnesses -/

/-- A plain node: not setup, unconditionally active, not pre-executed. -/
def mkN (i : Ident) (prio comp : Int) (seq : Bool) (tmo : Option Int)
    (raises : Bool) (v : Int) : ExecNode :=
  ⟨i, prio, comp, seq, tmo, false, .lit true, false, none, raises, v⟩

/-- The trivial oracle: no completions, clock readings 0. -/
def o0 : IterOracle := ⟨[], 0, [], [], [], 0, [], [], 0, 0, []⟩

def dummyState : SchedState := ⟨⟨[], []⟩, [], [], [], [], [], [], []⟩

/-- Three independent roots: `0` (priority 2), `1` (priority 1, sequential,
timeout 5), `2` (priority 0); two workers. -/
def cfgSeq : Config :=
  { node_dict := [(0, mkN 0 2 2 false none false 10),
                  (1, mkN 1 1 1 true (some 5) false 11),
                  (2, mkN 2 0 0 false none false 12)],
    max_concurrency := 2, behavior := .permissive,
    graph := ⟨[0, 1, 2], []⟩, modified_node_dict := none }

/-- Second iteration's events for `cfgSeq`: node 0's worker finished before
the iteration; the sequential post-wait reaches its deadline with no new
completion (node 1 overran its 5-second budget). -/
def oSeq2 : IterOracle := { o0 with d0 := [0], tS := 10, tQ := 10 }

def seqS1 : SchedState :=
  (runStates cfgSeq [o0] (initState cfgSeq)).getD 0 dummyState

def seqS2 : SchedState :=
  (runStates cfgSeq [o0, oSeq2] (initState cfgSeq)).getD 1 dummyState

/-- Chain `0 → 1 → 2` where node 1's `run` raises; `all_children` policy. -/
def cfgChain : Config :=
  { node_dict := [(0, mkN 0 0 0 false none false 7),
                  (1, mkN 1 0 0 false none true 8),
                  (2, mkN 2 0 0 false none false 9)],
    max_concurrency := 2, behavior := .all_children,
    graph := ⟨[0, 1, 2], [(0, 1), (1, 2)]⟩, modified_node_dict := none }

def chainOs : List IterOracle := [o0, { o0 with d0 := [0] }, { o0 with d0 := [1] }]

def chainTable : Table := finishedWith (execute cfgChain chainOs)

/-- Edge `0 → 1` where node 0 is a pre-executed input node. -/
def cfgArg : Config :=
  { node_dict := [(0, ⟨0, 0, 0, false, none, false, .lit true, true, some 5,
                       false, 5⟩),
                  (1, mkN 1 0 0 false none false 3)],
    max_concurrency := 1, behavior := .strict,
    graph := ⟨[0, 1], [(0, 1)]⟩, modified_node_dict := none }

def argOs : List IterOracle := [o0, { o0 with d0 := [1] }]

/-- Gate scenario: node 3 has `active = lit false` and dependent 4. -/
def cfgGate : Config :=
  { node_dict := [(3, ⟨3, 0, 0, false, none, false, .lit false, false, none,
                       false, 1⟩),
                  (4, mkN 4 0 0 false none false 2)],
    max_concurrency := 2, behavior := .strict,
    graph := ⟨[3, 4], [(3, 4)]⟩, modified_node_dict := none }

def gateS' : SchedState :=
  match dispatchPhase cfgGate o0 (initState cfgGate) with
  | .ok s => s
  | .error _ => dummyState

/-- A state blocked on a saturated pool: node 4 submitted, not done, with a
configured timeout; the stale runnable list is empty. -/
def wBlocked : SchedState :=
  { graph := ⟨[4], []⟩,
    xns := [(4, mkN 4 0 0 false (some 5) false 1)],
    futures := [4], doneIds := [], runningVar := [4], doneVar := [],
    launch := [(4, 0)], runnable := [] }

def cfgW : Config :=
  { node_dict := [(4, mkN 4 0 0 false (some 5) false 1)],
    max_concurrency := 2, behavior := .strict,
    graph := ⟨[4], []⟩, modified_node_dict := none }

/-- The two-node graph of the chain scenario after node 0 has been reaped:
`1 -> 2` with node 1 the errored node. -/
def g7 : DiGraphEx := ⟨[1, 2], [(1, 2)]⟩

def g7' : DiGraphEx := (successors g7 1).foldl remove_recursively g7

/-- The state reached by `cfgArg` after both iterations. -/
def argS2 : SchedState :=
  (runStates cfgArg argOs (initState cfgArg)).getD 1 dummyState

/-- A state with one future already done and one still pending, for the
post-wait witness. -/
def wMixed : SchedState :=
  { graph := ⟨[4], []⟩,
    xns := [(3, mkN 3 0 0 false none false 1),
            (4, mkN 4 0 0 true (some 5) false 1)],
    futures := [3, 4], doneIds := [3], runningVar := [4], doneVar := [],
    launch := [(3, 0), (4, 1)], runnable := [] }

/-- A table with one setup and one plain node, for the state-cloner
witness. -/
def cfgMod : Config :=
  { node_dict := [(0, ⟨0, 0, 0, false, none, true, .lit true, false, some 9,
                       false, 9⟩),
                  (1, mkN 1 0 0 false none false 3)],
    max_concurrency := 1, behavior := .strict,
    graph := ⟨[0, 1], []⟩, modified_node_dict := some [] }

/-! ## Working-graph lemmas -/

theorem mem_root_nodes {g : DiGraphEx} {i : Ident} :
    i ∈ root_nodes g ↔ i ∈ g.nodes ∧ ∀ e ∈ g.edges, e.2 ≠ i := by
  simp [root_nodes, List.mem_filter]

theorem root_nodes_subset {g : DiGraphEx} {i : Ident}
    (h : i ∈ root_nodes g) : i ∈ g.nodes :=
  (mem_root_nodes.mp h).1

theorem mem_remove_node_nodes {g : DiGraphEx} {i m : Ident} :
    m ∈ (remove_node g i).nodes ↔ m ∈ g.nodes ∧ m ≠ i := by
  simp [remove_node, List.mem_filter]

theorem mem_remove_node_edges {g : DiGraphEx} {i : Ident}
    {e : Ident × Ident} :
    e ∈ (remove_node g i).edges ↔ e ∈ g.edges ∧ e.1 ≠ i ∧ e.2 ≠ i := by
  simp [remove_node, List.mem_filter]

theorem mem_fold_remove_nodes {L : List Ident} {g : DiGraphEx} {m : Ident} :
    m ∈ (L.foldl remove_node g).nodes ↔ m ∈ g.nodes ∧ m ∉ L := by
  induction L generalizing g with
  | nil => simp
  | cons a L ih =>
    simp only [List.foldl_cons, ih, mem_remove_node_nodes, List.mem_cons]
    constructor
    · rintro ⟨⟨hm, hne⟩, hL⟩
      exact ⟨hm, by rintro (rfl | h) <;> simp_all⟩
    · rintro ⟨hm, hL⟩
      exact ⟨⟨hm, fun h => hL (Or.inl h)⟩, fun h => hL (Or.inr h)⟩

theorem mem_fold_remove_edges {L : List Ident} {g : DiGraphEx}
    {e : Ident × Ident} :
    e ∈ (L.foldl remove_node g).edges ↔ e ∈ g.edges ∧ e.1 ∉ L ∧ e.2 ∉ L := by
  induction L generalizing g with
  | nil => simp
  | cons a L ih =>
    simp only [List.foldl_cons, ih, mem_remove_node_edges, List.mem_cons]
    constructor
    · rintro ⟨⟨he, h1, h2⟩, hL1, hL2⟩
      refine ⟨he, ?_, ?_⟩
      · rintro (rfl | h) <;> simp_all
      · rintro (rfl | h) <;> simp_all
    · rintro ⟨he, h1, h2⟩
      exact ⟨⟨he, fun h => h1 (Or.inl h), fun h => h2 (Or.inl h)⟩,
        fun h => h1 (Or.inr h), fun h => h2 (Or.inr h)⟩

theorem mem_succFrontier {g : DiGraphEx} {S : List Ident} {m : Ident} :
    m ∈ succFrontier g S ↔ ∃ e ∈ g.edges, e.1 ∈ S ∧ e.2 ∉ S ∧ e.2 = m := by
  simp only [succFrontier, List.mem_map, List.mem_filter, decide_eq_true_eq]
  constructor
  · rintro ⟨e, ⟨he, h1, h2⟩, rfl⟩
    exact ⟨e, he, h1, h2, rfl⟩
  · rintro ⟨e, he, h1, h2, rfl⟩
    exact ⟨e, ⟨he, h1, h2⟩, rfl⟩

theorem saturate_subset {g : DiGraphEx} {f : Nat} {S : List Ident} :
    S ⊆ saturate g f S := by
  induction f generalizing S with
  | zero => simp [saturate]
  | succ f ih =>
    intro x hx
    simp only [saturate]
    split
    · exact hx
    · exact ih (List.mem_append_left _ hx)

theorem saturate_sound {g : DiGraphEx} {f : Nat} {S : List Ident}
    (P : Ident → Prop) (hS : ∀ y ∈ S, P y)
    (hcl : ∀ e ∈ g.edges, P e.1 → P e.2) :
    ∀ x ∈ saturate g f S, P x := by
  induction f generalizing S with
  | zero => simpa [saturate] using hS
  | succ f ih =>
    intro x hx
    simp only [saturate] at hx
    split at hx
    · exact hS x hx
    · refine ih (fun y hy => ?_) x hx
      rcases List.mem_append.mp hy with h | h
      · exact hS y h
      · obtain ⟨e, he, h1, _, rfl⟩ := mem_succFrontier.mp h
        exact hcl e he (hS e.1 h1)

theorem saturate_saturated {g : DiGraphEx} {f : Nat} {S : List Ident}
    (hf : ((g.edges.map (·.2)).toFinset \ S.toFinset).card < f) :
    succFrontier g (saturate g f S) = [] := by
  induction f generalizing S with
  | zero => omega
  | succ f ih =>
    simp only [saturate]
    split
    · next h =>
      simpa [saturate, h] using h
    · next h =>
      refine ih ?_
      obtain ⟨t, ht⟩ := List.exists_mem_of_ne_nil _ h
      obtain ⟨e, he, _, h2, rfl⟩ := mem_succFrontier.mp ht
      have hsub : (g.edges.map (·.2)).toFinset \ (S ++ succFrontier g S).toFinset ⊂
          (g.edges.map (·.2)).toFinset \ S.toFinset := by
        refine Finset.ssubset_iff_of_subset
          (Finset.sdiff_subset_sdiff (le_refl _) ?_) |>.mpr ?_
        · intro x hx
          simp only [List.toFinset_append, Finset.mem_union]
          exact Or.inl hx
        · refine ⟨e.2, ?_, ?_⟩
          · simp only [Finset.mem_sdiff, List.mem_toFinset]
            exact ⟨List.mem_map.mpr ⟨e, he, rfl⟩, h2⟩
          · simp only [Finset.mem_sdiff, List.mem_toFinset, List.mem_append,
              not_and, not_not]
            intro _
            exact Or.inr ht
      have := Finset.card_lt_card hsub
      omega

theorem mem_reachClosure_self {g : DiGraphEx} {i : Ident} :
    i ∈ reachClosure g i :=
  saturate_subset (List.mem_singleton.mpr rfl)

theorem reachClosure_closed {g : DiGraphEx} {i : Ident} {e : Ident × Ident}
    (he : e ∈ g.edges) (h1 : e.1 ∈ reachClosure g i) :
    e.2 ∈ reachClosure g i := by
  by_contra h2
  have hsat : succFrontier g (reachClosure g i) = [] := by
    refine saturate_saturated ?_
    have : ((g.edges.map (·.2)).toFinset \ ([i] : List Ident).toFinset).card ≤
        (g.edges.map (·.2)).toFinset.card := Finset.card_le_card
      (Finset.sdiff_subset)
    calc ((g.edges.map (·.2)).toFinset \ ([i] : List Ident).toFinset).card
        ≤ (g.edges.map (·.2)).toFinset.card := this
      _ < satFuel g := Nat.lt_succ_self _
  have : e.2 ∈ succFrontier g (reachClosure g i) :=
    mem_succFrontier.mpr ⟨e, he, h1, h2, rfl⟩
  rw [hsat] at this
  exact absurd this (List.not_mem_nil _)

theorem reach_mem_closure {g : DiGraphEx} {i m : Ident}
    (h : Relation.ReflTransGen (edgeRel g) i m) : m ∈ reachClosure g i := by
  induction h with
  | refl => exact mem_reachClosure_self
  | tail _ hstep ih => exact reachClosure_closed hstep ih

theorem closure_reach {g : DiGraphEx} {i m : Ident}
    (h : m ∈ reachClosure g i) : Relation.ReflTransGen (edgeRel g) i m := by
  refine saturate_sound (Relation.ReflTransGen (edgeRel g) i) ?_ ?_ m h
  · intro y hy
    rw [List.mem_singleton.mp hy]
  · intro e he h1
    exact Relation.ReflTransGen.tail h1 he

theorem mem_remove_recursively_nodes {g : DiGraphEx} {i m : Ident} :
    m ∈ (remove_recursively g i).nodes ↔
      m ∈ g.nodes ∧ m ∉ reachClosure g i := by
  simp [remove_recursively, List.mem_filter]

theorem mem_remove_recursively_edges {g : DiGraphEx} {i : Ident}
    {e : Ident × Ident} :
    e ∈ (remove_recursively g i).edges ↔
      e ∈ g.edges ∧ e.1 ∉ reachClosure g i ∧ e.2 ∉ reachClosure g i := by
  simp [remove_recursively, List.mem_filter]

theorem remove_recursively_complete {g : DiGraphEx} {i m : Ident}
    (h : Relation.ReflTransGen (edgeRel g) i m) :
    m ∉ (remove_recursively g i).nodes := by
  intro hm
  exact (mem_remove_recursively_nodes.mp hm).2 (reach_mem_closure h)

theorem remove_recursively_nodes_subset {g : DiGraphEx} {i m : Ident}
    (h : m ∈ (remove_recursively g i).nodes) : m ∈ g.nodes :=
  (mem_remove_recursively_nodes.mp h).1

theorem reach_closure_absorb {g : DiGraphEx} {b x m : Ident}
    (hx : x ∈ reachClosure g b)
    (h : Relation.ReflTransGen (edgeRel g) x m) : m ∈ reachClosure g b := by
  induction h with
  | refl => exact hx
  | tail _ hstep ih => exact reachClosure_closed hstep ih

theorem reach_rr_or {g : DiGraphEx} {b a m : Ident}
    (h : Relation.ReflTransGen (edgeRel g) a m) :
    m ∈ reachClosure g b ∨
      (m ∉ reachClosure g b ∧ a ∉ reachClosure g b →
        Relation.ReflTransGen (edgeRel (remove_recursively g b)) a m) := by
  induction h with
  | refl => exact Or.inr (fun _ => Relation.ReflTransGen.refl)
  | tail hab hstep ih =>
    rename_i x m'
    by_cases hm : m' ∈ reachClosure g b
    · exact Or.inl hm
    · refine Or.inr (fun hh => ?_)
      have hx : x ∉ reachClosure g b := by
        intro hx
        exact hm (reachClosure_closed hstep hx)
      rcases ih with h | h
      · exact absurd h hx
      · refine Relation.ReflTransGen.tail (h ⟨hx, hh.2⟩) ?_
        exact mem_remove_recursively_edges.mpr ⟨hstep, hx, hm⟩

theorem fold_rr_nodes_subset {L : List Ident} {g : DiGraphEx} {m : Ident}
    (h : m ∈ (L.foldl remove_recursively g).nodes) : m ∈ g.nodes := by
  induction L generalizing g with
  | nil => exact h
  | cons a L ih => exact remove_recursively_nodes_subset (ih h)

theorem fold_rr_complete {L : List Ident} {g : DiGraphEx} {a m : Ident}
    (ha : a ∈ L) (h : Relation.ReflTransGen (edgeRel g) a m) :
    m ∉ (L.foldl remove_recursively g).nodes := by
  induction L generalizing g with
  | nil => exact absurd ha (List.not_mem_nil _)
  | cons b L ih =>
    simp only [List.foldl_cons]
    rcases List.mem_cons.mp ha with rfl | ha'
    · intro hm
      exact remove_recursively_complete h (fold_rr_nodes_subset hm)
    · by_cases hmb : m ∈ reachClosure g b
      · intro hm
        have : m ∈ (remove_recursively g b).nodes := fold_rr_nodes_subset hm
        exact (mem_remove_recursively_nodes.mp this).2 hmb
      · by_cases hab : a ∈ reachClosure g b
        · intro hm
          exact hmb (reach_closure_absorb hab h)
        · rcases reach_rr_or (b := b) h with hc | hc
          · intro hm
            have : m ∈ (remove_recursively g b).nodes := fold_rr_nodes_subset hm
            exact (mem_remove_recursively_nodes.mp this).2 hc
          · exact ih ha' (hc ⟨hmb, hab⟩)

/-! ## Selection-rule lemmas -/

theorem le_foldl_max {ns : List ExecNode} {a : Int} :
    a ≤ ns.foldl (fun x m => max x m.priority) a := by
  induction ns generalizing a with
  | nil => exact le_refl _
  | cons n ns ih => exact le_trans (le_max_left _ _) ih

theorem mem_le_foldl_max {ns : List ExecNode} {a : Int} {m : ExecNode}
    (h : m ∈ ns) : m.priority ≤ ns.foldl (fun x m => max x m.priority) a := by
  induction ns generalizing a with
  | nil => exact absurd h (List.not_mem_nil _)
  | cons n ns ih =>
    rcases List.mem_cons.mp h with rfl | h'
    · exact le_trans (le_max_right _ _) le_foldl_max
    · exact ih h'

theorem foldl_max_attained {ns : List ExecNode} {a : Int} :
    ns.foldl (fun x m => max x m.priority) a = a ∨
      ∃ m ∈ ns, ns.foldl (fun x m => max x m.priority) a = m.priority := by
  induction ns generalizing a with
  | nil => exact Or.inl rfl
  | cons n ns ih =>
    rcases ih (a := max a n.priority) with h | ⟨m, hm, h⟩
    · rcases max_choice a n.priority with hc | hc
      · rw [hc] at h
        exact Or.inl (by rw [List.foldl_cons, hc, h])
      · rw [hc] at h
        exact Or.inr ⟨n, List.mem_cons_self _ _, by rw [List.foldl_cons, hc, h]⟩
    · exact Or.inr ⟨m, List.mem_cons_of_mem _ hm, by rw [List.foldl_cons, h]⟩

theorem le_maxPriority {ns : List ExecNode} {m : ExecNode} (h : m ∈ ns) :
    m.priority ≤ maxPriority ns := by
  cases ns with
  | nil => exact absurd h (List.not_mem_nil _)
  | cons n rest =>
    rcases List.mem_cons.mp h with rfl | h'
    · exact le_foldl_max
    · exact mem_le_foldl_max h'

theorem maxPriority_attained {ns : List ExecNode} (h : ns ≠ []) :
    ∃ m ∈ ns, m.priority = maxPriority ns := by
  cases ns with
  | nil => exact absurd rfl h
  | cons n rest =>
    rcases @foldl_max_attained rest n.priority with hh | ⟨m, hm, hh⟩
    · exact ⟨n, List.mem_cons_self _ _, hh.symm⟩
    · exact ⟨m, List.mem_cons_of_mem _ hm, hh.symm⟩

theorem mem_ghp {ns : List ExecNode} {m : ExecNode} :
    m ∈ get_highest_priority_nodes ns ↔
      m ∈ ns ∧ m.priority = maxPriority ns := by
  simp [get_highest_priority_nodes, List.mem_filter]

theorem ghp_ne_nil {ns : List ExecNode} (h : ns ≠ []) :
    get_highest_priority_nodes ns ≠ [] := by
  obtain ⟨m, hm, hp⟩ := maxPriority_attained h
  intro hnil
  exact (List.not_mem_nil m) (hnil ▸ mem_ghp.mpr ⟨hm, hp⟩)

theorem mem_insertCP {x a : ExecNode} {l : List ExecNode} :
    a ∈ insertCP x l ↔ a = x ∨ a ∈ l := by
  induction l with
  | nil => simp [insertCP]
  | cons y ys ih =>
    simp only [insertCP]
    split
    · simp
    · simp only [List.mem_cons, ih]
      tauto

theorem mem_sortCP {a : ExecNode} {l : List ExecNode} :
    a ∈ sortCP l ↔ a ∈ l := by
  induction l with
  | nil => simp [sortCP]
  | cons x xs ih => simp [sortCP, mem_insertCP, ih]

theorem insertCP_ne_nil {x : ExecNode} {l : List ExecNode} :
    insertCP x l ≠ [] := by
  cases l with
  | nil => simp [insertCP]
  | cons y ys =>
    simp only [insertCP]
    split <;> simp

theorem insertCP_chain {x : ExecNode} {l : List ExecNode}
    (h : List.Chain' (fun a b => a.compound_priority ≤ b.compound_priority) l) :
    List.Chain' (fun a b => a.compound_priority ≤ b.compound_priority)
      (insertCP x l) := by
  induction l with
  | nil => simp [insertCP]
  | cons y ys ih =>
    simp only [insertCP]
    split
    · next hle => exact List.chain'_cons.mpr ⟨hle, h⟩
    · next hgt =>
      have hyx : y.compound_priority ≤ x.compound_priority := le_of_not_le hgt
      have h' := ih h.tail
      refine List.chain'_cons'.mpr ⟨?_, h'⟩
      intro b hb
      cases ys with
      | nil =>
        simp only [insertCP, List.head?_cons, Option.mem_def,
          Option.some_inj] at hb
        subst hb
        exact hyx
      | cons z zs =>
        have hyz : y.compound_priority ≤ z.compound_priority :=
          (List.chain'_cons.mp h).1
        simp only [insertCP] at hb
        split at hb
        · simp only [List.head?_cons, Option.mem_def, Option.some_inj] at hb
          subst hb
          exact hyx
        · simp only [List.head?_cons, Option.mem_def, Option.some_inj] at hb
          subst hb
          exact hyz

theorem sortCP_chain {l : List ExecNode} :
    List.Chain' (fun a b => a.compound_priority ≤ b.compound_priority)
      (sortCP l) := by
  induction l with
  | nil => simp [sortCP]
  | cons x xs ih => exact insertCP_chain ih

theorem chain_le_getLast {l : List ExecNode} {d : ExecNode}
    (hc : List.Chain' (fun a b => a.compound_priority ≤ b.compound_priority)
      l) :
    ∀ a ∈ l, a.compound_priority ≤ (l.getLastD d).compound_priority := by
  induction l generalizing d with
  | nil => intro a ha; exact absurd ha (List.not_mem_nil _)
  | cons x xs ih =>
    intro a ha
    rw [List.getLastD_cons]
    cases xs with
    | nil =>
      rcases List.mem_cons.mp ha with rfl | h
      · simp [List.getLastD]
      · exact absurd h (List.not_mem_nil _)
    | cons y ys =>
      have hstep : x.compound_priority ≤ y.compound_priority :=
        (List.chain'_cons.mp hc).1
      have htail := (List.chain'_cons.mp hc).2
      rcases List.mem_cons.mp ha with rfl | h
      · exact le_trans hstep (ih htail y (List.mem_cons_self _ _))
      · exact ih htail a h

theorem getLastD_mem : ∀ (l : List ExecNode) (d : ExecNode), l ≠ [] →
    l.getLastD d ∈ l := by
  intro l
  induction l with
  | nil => intro d h; exact absurd rfl h
  | cons x xs ih =>
    intro d _
    rw [List.getLastD_cons]
    cases xs with
    | nil => simp [List.getLastD]
    | cons y ys => exact List.mem_cons_of_mem _ (ih x (by simp))

theorem pickNode_mem {rxns : List ExecNode} (h : rxns ≠ []) :
    pickNode rxns ∈ rxns := by
  have h1 : get_highest_priority_nodes rxns ≠ [] := ghp_ne_nil h
  have h2 : sortCP (get_highest_priority_nodes rxns) ≠ [] := by
    cases hgh : get_highest_priority_nodes rxns with
    | nil => exact absurd hgh h1
    | cons a l => simp [sortCP, insertCP_ne_nil]
  have := getLastD_mem _ defaultXN h2
  exact (mem_ghp.mp (mem_sortCP.mp this)).1

theorem pickNode_priority {rxns : List ExecNode} (h : rxns ≠ []) :
    (pickNode rxns).priority = maxPriority rxns := by
  have h1 : get_highest_priority_nodes rxns ≠ [] := ghp_ne_nil h
  have h2 : sortCP (get_highest_priority_nodes rxns) ≠ [] := by
    cases hgh : get_highest_priority_nodes rxns with
    | nil => exact absurd hgh h1
    | cons a l => simp [sortCP, insertCP_ne_nil]
  have := getLastD_mem _ defaultXN h2
  exact (mem_ghp.mp (mem_sortCP.mp this)).2

theorem pickNode_priority_max {rxns : List ExecNode} (h : rxns ≠ [])
    {y : ExecNode} (hy : y ∈ rxns) :
    y.priority ≤ (pickNode rxns).priority := by
  rw [pickNode_priority h]
  exact le_maxPriority hy

theorem pickNode_compound_max {rxns : List ExecNode} (h : rxns ≠ [])
    {y : ExecNode} (hy : y ∈ rxns)
    (hp : y.priority = (pickNode rxns).priority) :
    y.compound_priority ≤ (pickNode rxns).compound_priority := by
  have hym : y ∈ sortCP (get_highest_priority_nodes rxns) := by
    rw [mem_sortCP, mem_ghp]
    exact ⟨hy, by rw [hp, pickNode_priority h]⟩
  exact chain_le_getLast sortCP_chain y hym

/-! ## Deadline-aggregation lemmas -/

theorem foldl_min_spec {l : List Int} {a : Int} :
    ∃ b, l.foldl (fun acc x => match acc with
        | none => some x
        | some m => some (min m x)) (some a) = some b ∧
      b ≤ a ∧ (b = a ∨ b ∈ l) ∧ ∀ x ∈ l, b ≤ x := by
  induction l generalizing a with
  | nil => exact ⟨a, rfl, le_refl _, Or.inl rfl, by simp⟩
  | cons x xs ih =>
    obtain ⟨b, hb, hba, hmem, hle⟩ := ih (a := min a x)
    refine ⟨b, hb, le_trans hba (min_le_left _ _), ?_, ?_⟩
    · rcases hmem with rfl | h
      · rcases min_choice a x with hc | hc
        · exact Or.inl hc
        · exact Or.inr (by rw [hc]; exact List.mem_cons_self x xs)
      · exact Or.inr (List.mem_cons_of_mem _ h)
    · intro y hy
      rcases List.mem_cons.mp hy with rfl | h
      · exact le_trans hba (min_le_right _ _)
      · exact hle y h

theorem minList?_nil : minList? [] = none := rfl

theorem minList?_cons {x : Int} {xs : List Int} :
    ∃ b, minList? (x :: xs) = some b ∧ b ≤ x ∧ (b = x ∨ b ∈ xs) ∧
      ∀ y ∈ xs, b ≤ y := by
  simpa [minList?, List.foldl_cons] using foldl_min_spec (l := xs) (a := x)

theorem minList?_eq_none {l : List Int} : minList? l = none ↔ l = [] := by
  cases l with
  | nil => simp [minList?_nil]
  | cons x xs =>
    obtain ⟨b, hb, _⟩ := @minList?_cons x xs
    simp [hb]

theorem minList?_spec {l : List Int} {m : Int} (h : minList? l = some m) :
    m ∈ l ∧ ∀ x ∈ l, m ≤ x := by
  cases l with
  | nil => exact absurd h (by simp [minList?_nil])
  | cons x xs =>
    obtain ⟨b, hb, hbx, hmem, hle⟩ := @minList?_cons x xs
    rw [hb] at h
    obtain rfl : b = m := Option.some_inj.mp h
    refine ⟨?_, ?_⟩
    · rcases hmem with rfl | hm
      · exact List.mem_cons_self _ _
      · exact List.mem_cons_of_mem _ hm
    · intro y hy
      rcases List.mem_cons.mp hy with rfl | hm
      · exact hbx
      · exact hle y hm

theorem get_next_timeout_eq {L : List (Ident × Int)} {fut dn : List Ident}
    {X : Table} {now : Int} :
    get_next_timeout L fut dn X now =
      match minList? (timeoutCands L fut dn X) with
      | none => none
      | some m => some (m - now) := rfl

theorem mem_timeoutCands {L : List (Ident × Int)} {fut dn : List Ident}
    {X : Table} {m : Int} :
    m ∈ timeoutCands L fut dn X ↔
      ∃ i ∈ fut, i ∉ dn ∧ ∃ t, (getNode X i).timeout = some t ∧
        m = ((L.lookup i).getD 0) + t := by
  simp only [timeoutCands, List.mem_filterMap, List.mem_filter,
    decide_eq_true_eq, Option.map_eq_some']
  constructor
  · rintro ⟨i, ⟨hi, hdn⟩, t, ht, rfl⟩
    exact ⟨i, hi, hdn, t, ht, rfl⟩
  · rintro ⟨i, hi, hdn, t, ht, rfl⟩
    exact ⟨i, ⟨hi, hdn⟩, t, ht, rfl⟩

/-! ## Completion-step lemmas -/

theorem applyDone_graph {d : List Ident} {s : SchedState} :
    (applyDone d s).graph = s.graph := rfl

theorem applyDone_futures {d : List Ident} {s : SchedState} :
    (applyDone d s).futures = s.futures := rfl

theorem applyDone_launch {d : List Ident} {s : SchedState} :
    (applyDone d s).launch = s.launch := rfl

theorem applyDone_runnable {d : List Ident} {s : SchedState} :
    (applyDone d s).runnable = s.runnable := rfl

theorem applyDone_runningVar {d : List Ident} {s : SchedState} :
    (applyDone d s).runningVar = s.runningVar := rfl

theorem applyDone_doneIds {d : List Ident} {s : SchedState} :
    (applyDone d s).doneIds = s.doneIds ++
      d.filter (fun i => decide (i ∈ s.futures ∧ i ∉ s.doneIds)) := rfl

theorem applyDone_done_superset {d : List Ident} {s : SchedState} {i : Ident}
    (h : i ∈ s.doneIds) : i ∈ (applyDone d s).doneIds := by
  rw [applyDone_doneIds]
  exact List.mem_append_left _ h

theorem applyDone_done_mem {d : List Ident} {s : SchedState} {i : Ident}
    (h : i ∈ (applyDone d s).doneIds) : i ∈ s.doneIds ∨ i ∈ s.futures := by
  rw [applyDone_doneIds] at h
  rcases List.mem_append.mp h with h | h
  · exact Or.inl h
  · exact Or.inr (of_decide_eq_true (List.mem_filter.mp h).2).1

theorem lookupNode_resMap {newly : List Ident} {t : Table} {i : Ident} :
    lookupNode (t.map (fun p =>
      if decide (p.1 ∈ newly) && !p.2.runRaises then
        (p.1, { p.2 with result := some p.2.runValue })
      else p)) i =
    (lookupNode t i).map (fun n =>
      if decide (i ∈ newly) && !n.runRaises then
        { n with result := some n.runValue }
      else n) := by
  induction t with
  | nil => rfl
  | cons p r ih =>
    rcases p with ⟨k, v⟩
    simp only [List.map_cons]
    cases hb : decide (k ∈ newly) && !v.runRaises
    · rw [if_neg (by simp [hb])]
      by_cases hki : k = i
      · subst hki
        simp [lookupNode]
        rw [if_neg (fun hcon => by simp [hcon.1, hcon.2] at hb)]
      · simp only [lookupNode]
        rw [if_neg hki, if_neg hki]
        exact ih
    · rw [if_pos (by simp [hb])]
      by_cases hki : k = i
      · subst hki
        have hb' : k ∈ newly ∧ v.runRaises = false := by simpa using hb
        simp [lookupNode]
        rw [if_pos hb']
      · simp only [lookupNode]
        rw [if_neg hki, if_neg hki]
        exact ih

theorem getNode_applyDone_id {d : List Ident} {s : SchedState} {i : Ident} :
    (getNode (applyDone d s).xns i).id = (getNode s.xns i).id := by
  show (getNode (s.xns.map _) i).id = _
  rw [getNode, getNode, lookupNode_resMap]
  cases h : lookupNode s.xns i with
  | none => rfl
  | some n =>
    simp only [Option.map_some', Option.getD_some]
    split <;> rfl

theorem applyDone_doneSub {d : List Ident} {s : SchedState}
    (h : ∀ i ∈ s.doneIds, i ∈ s.futures) :
    ∀ i ∈ (applyDone d s).doneIds, i ∈ (applyDone d s).futures := by
  intro i hi
  rw [applyDone_futures]
  rcases applyDone_done_mem hi with h' | h'
  · exact h i h'
  · exact h'

theorem InvS_applyDone {cfg : Config} {s : SchedState} {d : List Ident}
    (h : InvS cfg s) : InvS cfg (applyDone d s) := by
  refine ⟨⟨?_, ?_, ?_, ?_, ?_⟩, ?_, ?_, ?_⟩
  · rw [applyDone_graph]; exact h.ginv.e1
  · rw [applyDone_graph]; exact h.ginv.e2
  · rw [applyDone_graph, applyDone_futures]
    intro e he h2
    rcases h.ginv.kinv e he h2 with h' | h' | ⟨hf, hd⟩
    · exact Or.inl h'
    · exact Or.inr (Or.inl h')
    · exact Or.inr (Or.inr ⟨hf, applyDone_done_superset hd⟩)
  · rw [applyDone_graph, applyDone_futures]; exact h.ginv.noInc
  · rw [applyDone_graph]; exact h.ginv.gsub
  · rw [applyDone_graph, applyDone_futures]
    intro n hn e he h2
    rcases h.minv n hn e he h2 with h' | ⟨hf, hd, hg⟩
    · exact Or.inl h'
    · exact Or.inr ⟨hf, applyDone_done_superset hd, hg⟩
  · exact applyDone_doneSub h.doneSub
  · rw [applyDone_graph]
    intro i hi
    rw [getNode_applyDone_id]
    exact h.idsOk i hi

/-! ## Phase shape lemmas -/

theorem blockPhase_ok_shape {cfg : Config} {o : IterOracle} {s s1 : SchedState}
    (h : blockPhase cfg o s = .ok s1) :
    (∃ rv dv, s1 = { applyDone o.dW (applyDone o.d0 s) with
        runningVar := rv, doneVar := dv }) ∨
    s1 = applyDone o.d0 s := by
  simp only [blockPhase, raise_timeout_error_conditionally] at h
  split at h
  · split at h
    · exact absurd h (by simp)
    · exact Or.inl ⟨_, _, (Except.ok.injEq _ _ |>.mp h).symm⟩
  · exact Or.inr (Except.ok.injEq _ _ |>.mp h).symm

theorem seqPreWait_ok_shape {o : IterOracle} {s4 s' : SchedState}
    (h : seqPreWait o s4 = .ok s') :
    ∃ rv, s' = { applyDone o.dP s4 with runningVar := rv } := by
  simp only [seqPreWait, raise_timeout_error_conditionally] at h
  split at h
  · exact absurd h (by simp)
  · exact ⟨_, (Except.ok.injEq _ _ |>.mp h).symm⟩

theorem seqPostWait_ok_shape {o : IterOracle} {s6 s' : SchedState}
    (h : seqPostWait o s6 = .ok s') :
    ∃ rv, s' = { applyDone o.dQ s6 with runningVar := rv } := by
  simp only [seqPostWait, raise_timeout_error_conditionally] at h
  split at h
  · exact absurd h (by simp)
  · exact ⟨_, (Except.ok.injEq _ _ |>.mp h).symm⟩

theorem reapPhase_ok_shape {cfg : Config} {s s' : SchedState}
    (h : reapPhase cfg s = .ok s') :
    ∃ g', reapList cfg.behavior s.xns s.doneIds s.futures s.graph = .ok g' ∧
      s' = { s with graph := g' } := by
  simp only [reapPhase] at h
  cases hr : reapList cfg.behavior s.xns s.doneIds s.futures s.graph with
  | error e => rw [hr] at h; exact absurd h (by simp [Except.map])
  | ok g' =>
    rw [hr] at h
    simp only [Except.map] at h
    exact ⟨g', rfl, (Except.ok.injEq _ _ |>.mp h).symm⟩

theorem prepPhase_ok_shape {cfg : Config} {o : IterOracle} {s s3 : SchedState}
    (h : prepPhase cfg o s = .ok s3) :
    ∃ s1 g', blockPhase cfg o s = .ok s1 ∧
      reapList cfg.behavior (applyDone o.d1 s1).xns (applyDone o.d1 s1).doneIds
        (applyDone o.d1 s1).futures (applyDone o.d1 s1).graph = .ok g' ∧
      s3 = refreshPhase { applyDone o.d1 s1 with graph := g' } := by
  simp only [prepPhase] at h
  cases hb : blockPhase cfg o s with
  | error e => rw [hb] at h; exact absurd h (by simp [Except.bind])
  | ok s1 =>
    rw [hb] at h
    simp only [Except.bind] at h
    cases hr : reapPhase cfg (applyDone o.d1 s1) with
    | error e => rw [hr] at h; exact absurd h (by simp [Except.map])
    | ok s2 =>
      obtain ⟨g', hg', rfl⟩ := reapPhase_ok_shape hr
      rw [hr] at h
      simp only [Except.map] at h
      exact ⟨s1, g', rfl, hg', (Except.ok.injEq _ _ |>.mp h).symm⟩

theorem dispatchPhase_ok_cases {cfg : Config} {o : IterOracle}
    {s3 s' : SchedState} (h : dispatchPhase cfg o s3 = .ok s') :
    (s3.runnable.length = 0 ∧ s' = s3) ∨
    (s3.runnable.length ≠ 0 ∧
      ((pickNode (s3.runnable.map (getNode s3.xns))).is_sequential = true ∧
        get_num_running_threads (applyDone o.d2 s3).futures
          (applyDone o.d2 s3).doneIds ≠ 0) ∧
      ∃ rv, s' = { applyDone o.dP (applyDone o.d2 s3) with runningVar := rv }) ∨
    (s3.runnable.length ≠ 0 ∧
      xn_active_in_call (pickNode (s3.runnable.map (getNode s3.xns)))
        (applyDone o.d3 (applyDone o.d2 s3)).xns = false ∧
      s' = { applyDone o.d3 (applyDone o.d2 s3) with
        graph := remove_recursively (applyDone o.d3 (applyDone o.d2 s3)).graph
          (pickNode (s3.runnable.map (getNode s3.xns))).id }) ∨
    (s3.runnable.length ≠ 0 ∧
      xn_active_in_call (pickNode (s3.runnable.map (getNode s3.xns)))
        (applyDone o.d3 (applyDone o.d2 s3)).xns ≠ false ∧
      (s' = submitStep o (pickNode (s3.runnable.map (getNode s3.xns)))
          (applyDone o.d3 (applyDone o.d2 s3)) ∨
       ∃ rv, s' = { applyDone o.dQ (submitStep o
           (pickNode (s3.runnable.map (getNode s3.xns)))
           (applyDone o.d3 (applyDone o.d2 s3))) with runningVar := rv })) := by
  simp only [dispatchPhase] at h
  split at h
  · next hz => exact Or.inl ⟨hz, ((Except.ok.injEq _ _).mp h).symm⟩
  · next hz =>
    split at h
    · next hseq =>
      obtain ⟨rv, hrv⟩ := seqPreWait_ok_shape h
      exact Or.inr (Or.inl ⟨hz, hseq, rv, hrv⟩)
    · next hseq =>
      split at h
      · next hact =>
        exact Or.inr (Or.inr (Or.inl ⟨hz, hact,
          ((Except.ok.injEq _ _).mp h).symm⟩))
      · next hact =>
        split at h
        · next hs =>
          obtain ⟨rv, hrv⟩ := seqPostWait_ok_shape h
          exact Or.inr (Or.inr (Or.inr ⟨hz, hact, Or.inr ⟨rv, hrv⟩⟩))
        · next hs =>
          exact Or.inr (Or.inr (Or.inr ⟨hz, hact,
            Or.inl ((Except.ok.injEq _ _).mp h).symm⟩))

/-! ## Graph-invariant preservation -/

theorem GInv_remove_node {cfg : Config} {fut don : List Ident}
    {g : DiGraphEx} {i : Ident} (h : GInv cfg fut don g) (hif : i ∈ fut)
    (hid : i ∈ don) : GInv cfg fut don (remove_node g i) := by
  refine ⟨?_, ?_, ?_, ?_, ?_⟩
  · intro e he
    obtain ⟨he, h1, h2⟩ := mem_remove_node_edges.mp he
    obtain ⟨hc, hn1, hn2⟩ := h.e1 e he
    exact ⟨hc, mem_remove_node_nodes.mpr ⟨hn1, h1⟩,
      mem_remove_node_nodes.mpr ⟨hn2, h2⟩⟩
  · intro e he h1 h2
    obtain ⟨hn1, hne1⟩ := mem_remove_node_nodes.mp h1
    obtain ⟨hn2, hne2⟩ := mem_remove_node_nodes.mp h2
    exact mem_remove_node_edges.mpr ⟨h.e2 e he hn1 hn2, hne1, hne2⟩
  · intro e he h2
    obtain ⟨hn2, _⟩ := mem_remove_node_nodes.mp h2
    rcases h.kinv e he hn2 with h1 | h1 | h1
    · by_cases hei : e.1 = i
      · exact Or.inr (Or.inr (hei ▸ ⟨hif, hid⟩))
      · exact Or.inl (mem_remove_node_nodes.mpr ⟨h1, hei⟩)
    · exact Or.inr (Or.inl h1)
    · exact Or.inr (Or.inr h1)
  · intro d hd e he
    exact h.noInc d hd e (mem_remove_node_edges.mp he).1
  · intro j hj
    exact h.gsub j (mem_remove_node_nodes.mp hj).1

theorem GInv_remove_recursively {cfg : Config} {fut don : List Ident}
    {g : DiGraphEx} {a : Ident} (h : GInv cfg fut don g) :
    GInv cfg fut don (remove_recursively g a) := by
  refine ⟨?_, ?_, ?_, ?_, ?_⟩
  · intro e he
    obtain ⟨he, h1, h2⟩ := mem_remove_recursively_edges.mp he
    obtain ⟨hc, hn1, hn2⟩ := h.e1 e he
    exact ⟨hc, mem_remove_recursively_nodes.mpr ⟨hn1, h1⟩,
      mem_remove_recursively_nodes.mpr ⟨hn2, h2⟩⟩
  · intro e he h1 h2
    obtain ⟨hn1, hne1⟩ := mem_remove_recursively_nodes.mp h1
    obtain ⟨hn2, hne2⟩ := mem_remove_recursively_nodes.mp h2
    exact mem_remove_recursively_edges.mpr ⟨h.e2 e he hn1 hn2, hne1, hne2⟩
  · intro e he h2
    obtain ⟨hn2, hR2⟩ := mem_remove_recursively_nodes.mp h2
    rcases h.kinv e he hn2 with h1 | h1 | h1
    · by_cases hR1 : e.1 ∈ reachClosure g a
      · exact absurd (reachClosure_closed (h.e2 e he h1 hn2) hR1) hR2
      · exact Or.inl (mem_remove_recursively_nodes.mpr ⟨h1, hR1⟩)
    · exact Or.inr (Or.inl h1)
    · exact Or.inr (Or.inr h1)
  · intro d hd e he
    exact h.noInc d hd e (mem_remove_recursively_edges.mp he).1
  · intro j hj
    exact h.gsub j (mem_remove_recursively_nodes.mp hj).1

theorem fold_rr_GInv {cfg : Config} {fut don : List Ident} {L : List Ident}
    {g : DiGraphEx} (h : GInv cfg fut don g) :
    GInv cfg fut don (L.foldl remove_recursively g) := by
  induction L generalizing g with
  | nil => exact h
  | cons a L ih => exact ih (GInv_remove_recursively h)

theorem handle_exception_GInv {cfg : Config} {fut don : List Ident}
    {b : ErrorStrategy} {g g' : DiGraphEx} {err : Bool} {i : Ident}
    (hok : handle_exception b g err i = .ok g') (h : GInv cfg fut don g) :
    GInv cfg fut don g' := by
  cases b with
  | strict =>
    simp only [handle_exception] at hok
    split at hok
    · exact absurd hok (by simp)
    · exact ((Except.ok.injEq _ _).mp hok) ▸ h
  | permissive =>
    simp only [handle_exception] at hok
    exact ((Except.ok.injEq _ _).mp hok) ▸ h
  | all_children =>
    simp only [handle_exception] at hok
    split at hok
    · exact ((Except.ok.injEq _ _).mp hok) ▸ fold_rr_GInv h
    · exact ((Except.ok.injEq _ _).mp hok) ▸ h
  | unknown c =>
    simp only [handle_exception] at hok
    split at hok
    · exact absurd hok (by simp)
    · exact ((Except.ok.injEq _ _).mp hok) ▸ h

theorem handle_exception_nodes_sub {b : ErrorStrategy} {g g' : DiGraphEx}
    {err : Bool} {i m : Ident} (hok : handle_exception b g err i = .ok g')
    (hm : m ∈ g'.nodes) : m ∈ g.nodes := by
  cases b with
  | strict =>
    simp only [handle_exception] at hok
    split at hok
    · exact absurd hok (by simp)
    · exact ((Except.ok.injEq _ _).mp hok) ▸ hm
  | permissive =>
    simp only [handle_exception] at hok
    exact ((Except.ok.injEq _ _).mp hok) ▸ hm
  | all_children =>
    simp only [handle_exception] at hok
    split at hok
    · obtain rfl := (Except.ok.injEq _ _).mp hok
      exact fold_rr_nodes_subset hm
    · exact ((Except.ok.injEq _ _).mp hok) ▸ hm
  | unknown c =>
    simp only [handle_exception] at hok
    split at hok
    · exact absurd hok (by simp)
    · exact ((Except.ok.injEq _ _).mp hok) ▸ hm

theorem reapList_GInv {cfg : Config} {fut don : List Ident}
    {b : ErrorStrategy} {X : Table} {L : List Ident} {g g' : DiGraphEx}
    (hL : ∀ i ∈ L, i ∈ fut) (h : GInv cfg fut don g)
    (hok : reapList b X don L g = .ok g') : GInv cfg fut don g' := by
  induction L generalizing g with
  | nil =>
    simp only [reapList] at hok
    exact ((Except.ok.injEq _ _).mp hok) ▸ h
  | cons i rest ih =>
    simp only [reapList] at hok
    split at hok
    · next hc =>
      cases hhe : handle_exception b g (getNode X i).runRaises i with
      | error e => rw [hhe] at hok; exact absurd hok (by simp)
      | ok g1 =>
        rw [hhe] at hok
        exact ih (fun j hj => hL j (List.mem_cons_of_mem _ hj))
          (GInv_remove_node (handle_exception_GInv hhe h)
            (hL i (List.mem_cons_self _ _)) hc.1) hok
    · exact ih (fun j hj => hL j (List.mem_cons_of_mem _ hj)) h hok

theorem reapList_nodes_sub {b : ErrorStrategy} {X : Table}
    {don : List Ident} {L : List Ident} {g g' : DiGraphEx}
    (hok : reapList b X don L g = .ok g') {m : Ident} (hm : m ∈ g'.nodes) :
    m ∈ g.nodes := by
  induction L generalizing g with
  | nil =>
    simp only [reapList] at hok
    exact ((Except.ok.injEq _ _).mp hok) ▸ hm
  | cons i rest ih =>
    simp only [reapList] at hok
    split at hok
    · cases hhe : handle_exception b g (getNode X i).runRaises i with
      | error e => rw [hhe] at hok; exact absurd hok (by simp)
      | ok g1 =>
        rw [hhe] at hok
        exact handle_exception_nodes_sub hhe
          ((mem_remove_node_nodes.mp (ih hok)).1)
    · exact ih hok


/-! ## Scheduler-invariant preservation -/

theorem InvS_update_running {cfg : Config} {s : SchedState}
    {rv : List Ident} (h : InvS cfg s) :
    InvS cfg { s with runningVar := rv } :=
  ⟨h.ginv, h.minv, h.doneSub, h.idsOk⟩

theorem InvS_update_running_doneVar {cfg : Config} {s : SchedState}
    {rv dv : List Ident} (h : InvS cfg s) :
    InvS cfg { s with runningVar := rv, doneVar := dv } :=
  ⟨h.ginv, h.minv, h.doneSub, h.idsOk⟩

theorem InvS_update_runnable {cfg : Config} {s : SchedState}
    {rn : List Ident} (h : InvS cfg s) :
    InvS cfg { s with runnable := rn } :=
  ⟨h.ginv, h.minv, h.doneSub, h.idsOk⟩

theorem blockPhase_InvS {cfg : Config} {o : IterOracle} {s s1 : SchedState}
    (h : InvS cfg s) (hok : blockPhase cfg o s = .ok s1) : InvS cfg s1 := by
  rcases blockPhase_ok_shape hok with ⟨rv, dv, rfl⟩ | rfl
  · exact InvS_update_running_doneVar (InvS_applyDone (InvS_applyDone h))
  · exact InvS_applyDone h

theorem mem_readySet {g : DiGraphEx} {fut : List Ident} {i : Ident} :
    i ∈ readySet g fut ↔ i ∈ root_nodes g ∧ i ∉ fut := by
  simp [readySet, List.mem_filter]

theorem refreshPhase_runnable_eq {s : SchedState} :
    (refreshPhase s).runnable =
      readySet (refreshPhase s).graph (refreshPhase s).futures := rfl

theorem prepPhase_runnable {cfg : Config} {o : IterOracle} {s s3 : SchedState}
    (hok : prepPhase cfg o s = .ok s3) :
    s3.runnable = readySet s3.graph s3.futures := by
  obtain ⟨s1, g', hb, hr, rfl⟩ := prepPhase_ok_shape hok
  exact refreshPhase_runnable_eq

theorem prepPhase_InvS {cfg : Config} {o : IterOracle} {s s3 : SchedState}
    (h : InvS cfg s) (hok : prepPhase cfg o s = .ok s3) : InvS cfg s3 := by
  obtain ⟨s1, g', hb, hr, rfl⟩ := prepPhase_ok_shape hok
  have h1 : InvS cfg (applyDone o.d1 s1) :=
    InvS_applyDone (blockPhase_InvS h hb)
  have h2 : InvS cfg { applyDone o.d1 s1 with graph := g' } := by
    refine ⟨reapList_GInv (fun i hi => hi) h1.ginv hr, ?_, h1.doneSub, ?_⟩
    · intro n hn e he h2
      rcases h1.minv n hn e he h2 with h' | ⟨hf, hd, hg⟩
      · exact Or.inl h'
      · exact Or.inr ⟨hf, hd, fun hc => hg (reapList_nodes_sub hr hc)⟩
    · intro i hi
      exact h1.idsOk i (reapList_nodes_sub hr hi)
  exact InvS_update_runnable h2

theorem pickNode_id_mem {X : Table} {L : List Ident}
    (hne : L.length ≠ 0) (hids : ∀ i ∈ L, (getNode X i).id = i) :
    (pickNode (L.map (getNode X))).id ∈ L := by
  have hmn : L.map (getNode X) ≠ [] := by
    intro hc
    exact hne (by simpa using congrArg List.length hc)
  obtain ⟨i, hi, hpick⟩ := List.mem_map.mp (pickNode_mem hmn)
  rw [← hpick, hids i hi]
  exact hi

theorem InvS_submit {cfg : Config} {s3 : SchedState} {o : IterOracle}
    (h : InvS cfg s3)
    (hrun : s3.runnable = readySet s3.graph s3.futures)
    (hne : s3.runnable.length ≠ 0) :
    InvS cfg (submitStep o (pickNode (s3.runnable.map (getNode s3.xns)))
      (applyDone o.d3 (applyDone o.d2 s3))) := by
  have hids : ∀ i ∈ s3.runnable, (getNode s3.xns i).id = i := by
    intro i hi
    rw [hrun] at hi
    exact h.idsOk i (root_nodes_subset (mem_readySet.mp hi).1)
  set pk := pickNode (s3.runnable.map (getNode s3.xns)) with hpk
  have hmem : pk.id ∈ s3.runnable := pickNode_id_mem hne hids
  rw [hrun] at hmem
  obtain ⟨hroot, hnf⟩ := mem_readySet.mp hmem
  have h5 : InvS cfg (applyDone o.d3 (applyDone o.d2 s3)) :=
    InvS_applyDone (InvS_applyDone h)
  obtain ⟨hrn, hrr⟩ := mem_root_nodes.mp hroot
  refine ⟨⟨?_, ?_, ?_, ?_, ?_⟩, ?_, ?_, ?_⟩
  · exact h5.ginv.e1
  · exact h5.ginv.e2
  · intro e he h2
    rcases h5.ginv.kinv e he h2 with h' | h' | hfd
    · exact Or.inl h'
    · exact Or.inr (Or.inl h')
    · exact Or.inr (Or.inr ⟨List.mem_append_left _ hfd.1, hfd.2⟩)
  · intro d hd e he
    rcases List.mem_append.mp hd with hd | hd
    · exact h5.ginv.noInc d hd e he
    · obtain rfl := List.mem_singleton.mp hd
      exact hrr e he
  · exact h5.ginv.gsub
  · intro n hn e he h2
    rcases List.mem_append.mp hn with hn | hn
    · rcases h5.minv n hn e he h2 with h' | ⟨hf, hd, hg⟩
      · exact Or.inl h'
      · exact Or.inr ⟨List.mem_append_left _ hf, hd, hg⟩
    · obtain rfl := List.mem_singleton.mp hn
      have hn2 : e.2 ∈ s3.graph.nodes := h2 ▸ hrn
      have hn1 : e.1 ∉ s3.graph.nodes := by
        intro hc
        exact hrr e (h.ginv.e2 e he hc hn2) h2
      rcases h.ginv.kinv e he hn2 with h' | h' | hfd
      · exact absurd h' hn1
      · exact Or.inl h'
      · exact Or.inr ⟨List.mem_append_left _ hfd.1,
          applyDone_done_superset (applyDone_done_superset hfd.2), hn1⟩
  · intro i hi
    exact List.mem_append_left _ (h5.doneSub i hi)
  · exact h5.idsOk

theorem dispatchPhase_InvS {cfg : Config} {o : IterOracle}
    {s3 s' : SchedState} (h : InvS cfg s3)
    (hrun : s3.runnable = readySet s3.graph s3.futures)
    (hok : dispatchPhase cfg o s3 = .ok s') : InvS cfg s' := by
  rcases dispatchPhase_ok_cases hok with ⟨_, rfl⟩ | ⟨_, _, rv, rfl⟩ |
    ⟨_, _, rfl⟩ | ⟨hne, _, rfl | ⟨rv, rfl⟩⟩
  · exact h
  · exact InvS_update_running (InvS_applyDone (InvS_applyDone h))
  · have h5 : InvS cfg (applyDone o.d3 (applyDone o.d2 s3)) :=
      InvS_applyDone (InvS_applyDone h)
    refine ⟨GInv_remove_recursively h5.ginv, ?_, h5.doneSub, ?_⟩
    · intro n hn e he h2
      rcases h5.minv n hn e he h2 with h' | ⟨hf, hd, hg⟩
      · exact Or.inl h'
      · exact Or.inr ⟨hf, hd,
          fun hc => hg (mem_remove_recursively_nodes.mp hc).1⟩
    · intro i hi
      exact h5.idsOk i (mem_remove_recursively_nodes.mp hi).1
  · exact InvS_submit h hrun hne
  · exact InvS_update_running (InvS_applyDone (InvS_submit h hrun hne))

theorem iterBody_InvS {cfg : Config} {o : IterOracle} {s s' : SchedState}
    (h : InvS cfg s) (hok : iterBody cfg o s = .ok s') : InvS cfg s' := by
  simp only [iterBody] at hok
  cases hp : prepPhase cfg o s with
  | error e => rw [hp] at hok; exact absurd hok (by simp [Except.bind])
  | ok s3 =>
    rw [hp] at hok
    simp only [Except.bind] at hok
    exact dispatchPhase_InvS (prepPhase_InvS h hp) (prepPhase_runnable hp) hok

theorem runStates_InvS {cfg : Config} {os : List IterOracle}
    {s : SchedState} (h : InvS cfg s) :
    ∀ t ∈ runStates cfg os s, InvS cfg t := by
  induction os generalizing s with
  | nil => intro t ht; exact absurd ht (List.not_mem_nil _)
  | cons o os ih =>
    intro t ht
    simp only [runStates] at ht
    split at ht
    · exact absurd ht (List.not_mem_nil _)
    · cases hi : iterBody cfg o s with
      | error e => rw [hi] at ht; exact absurd ht (List.not_mem_nil _)
      | ok s1 =>
        rw [hi] at ht
        rcases List.mem_cons.mp ht with rfl | ht'
        · exact iterBody_InvS h hi
        · exact ih (iterBody_InvS h hi) t ht'

theorem initState_xns {cfg : Config} : (initState cfg).xns = initXns cfg := rfl

theorem initState_InvS {cfg : Config}
    (hWF : ∀ e ∈ cfg.graph.edges,
      e.1 ∈ cfg.graph.nodes ∧ e.2 ∈ cfg.graph.nodes)
    (hIds : ∀ i ∈ cfg.graph.nodes, (getNode (initXns cfg) i).id = i) :
    InvS cfg (initState cfg) := by
  have hpre : ∀ i, i ∈ cfg.graph.nodes.filter
      (fun i => (getNode (initXns cfg) i).executed) ↔
      i ∈ cfg.graph.nodes ∧ (getNode (initXns cfg) i).executed = true := by
    intro i
    simp [List.mem_filter]
  refine ⟨⟨?_, ?_, ?_, ?_, ?_⟩, ?_, ?_, ?_⟩
  · intro e he
    obtain ⟨he', h1, h2⟩ := mem_fold_remove_edges.mp he
    exact ⟨he', mem_fold_remove_nodes.mpr ⟨(hWF e he').1, h1⟩,
      mem_fold_remove_nodes.mpr ⟨(hWF e he').2, h2⟩⟩
  · intro e he h1 h2
    exact mem_fold_remove_edges.mpr ⟨he, (mem_fold_remove_nodes.mp h1).2,
      (mem_fold_remove_nodes.mp h2).2⟩
  · intro e he h2
    by_cases hp : e.1 ∈ cfg.graph.nodes.filter
        (fun i => (getNode (initXns cfg) i).executed)
    · exact Or.inr (Or.inl ((hpre e.1).mp hp).2)
    · exact Or.inl (mem_fold_remove_nodes.mpr ⟨(hWF e he).1, hp⟩)
  · intro d hd
    exact absurd hd (List.not_mem_nil _)
  · intro i hi
    exact (mem_fold_remove_nodes.mp hi).1
  · intro n hn
    exact absurd hn (List.not_mem_nil _)
  · intro i hi
    exact absurd hi (List.not_mem_nil _)
  · intro i hi
    exact hIds i (mem_fold_remove_nodes.mp hi).1


/-! ## Monotonicity and persistence -/

theorem blockPhase_graph {cfg : Config} {o : IterOracle} {s s1 : SchedState}
    (hok : blockPhase cfg o s = .ok s1) :
    s1.graph = s.graph ∧ s1.futures = s.futures ∧
      (∀ i ∈ s.doneIds, i ∈ s1.doneIds) := by
  rcases blockPhase_ok_shape hok with ⟨rv, dv, rfl⟩ | rfl
  · exact ⟨rfl, rfl, fun i hi =>
      applyDone_done_superset (applyDone_done_superset hi)⟩
  · exact ⟨rfl, rfl, fun i hi => applyDone_done_superset hi⟩

theorem prepPhase_facts {cfg : Config} {o : IterOracle} {s s3 : SchedState}
    (hok : prepPhase cfg o s = .ok s3) :
    (∀ m ∈ s3.graph.nodes, m ∈ s.graph.nodes) ∧ s3.futures = s.futures ∧
      (∀ i ∈ s.doneIds, i ∈ s3.doneIds) := by
  obtain ⟨s1, g', hb, hr, rfl⟩ := prepPhase_ok_shape hok
  obtain ⟨hg, hf, hd⟩ := blockPhase_graph hb
  refine ⟨?_, ?_, ?_⟩
  · intro m hm
    have : m ∈ (applyDone o.d1 s1).graph.nodes := reapList_nodes_sub hr hm
    rw [applyDone_graph, hg] at this
    exact this
  · show (applyDone o.d1 s1).futures = s.futures
    rw [applyDone_futures, hf]
  · intro i hi
    exact applyDone_done_superset (hd i hi)

theorem submitStep_futures {o : IterOracle} {xn : ExecNode}
    {s : SchedState} :
    (submitStep o xn s).futures = s.futures ++ [xn.id] := rfl

theorem submitStep_graph {o : IterOracle} {xn : ExecNode} {s : SchedState} :
    (submitStep o xn s).graph = s.graph := rfl

theorem dispatchPhase_facts {cfg : Config} {o : IterOracle}
    {s3 s' : SchedState} (h : InvS cfg s3)
    (hrun : s3.runnable = readySet s3.graph s3.futures)
    (hok : dispatchPhase cfg o s3 = .ok s') :
    (∀ m ∈ s'.graph.nodes, m ∈ s3.graph.nodes) ∧
      (s'.futures = s3.futures ∨
        (s'.futures = s3.futures ++
          [(pickNode (s3.runnable.map (getNode s3.xns))).id] ∧
         (pickNode (s3.runnable.map (getNode s3.xns))).id ∈
           readySet s3.graph s3.futures)) := by
  have hids : s3.runnable.length ≠ 0 →
      (pickNode (s3.runnable.map (getNode s3.xns))).id ∈
        readySet s3.graph s3.futures := by
    intro hne
    have hids' : ∀ i ∈ s3.runnable, (getNode s3.xns i).id = i := by
      intro i hi
      rw [hrun] at hi
      exact h.idsOk i (root_nodes_subset (mem_readySet.mp hi).1)
    rw [← hrun]
    exact pickNode_id_mem (X := s3.xns) hne hids'
  rcases dispatchPhase_ok_cases hok with ⟨_, rfl⟩ | ⟨_, _, rv, rfl⟩ |
    ⟨_, _, rfl⟩ | ⟨hne, _, rfl | ⟨rv, rfl⟩⟩
  · exact ⟨fun m hm => hm, Or.inl rfl⟩
  · exact ⟨fun m hm => hm, Or.inl rfl⟩
  · exact ⟨fun m hm => (mem_remove_recursively_nodes.mp hm).1, Or.inl rfl⟩
  · exact ⟨fun m hm => hm, Or.inr ⟨rfl, hids hne⟩⟩
  · exact ⟨fun m hm => hm, Or.inr ⟨rfl, hids hne⟩⟩

theorem iterBody_persist {cfg : Config} {o : IterOracle} {s s' : SchedState}
    (h : InvS cfg s) (hok : iterBody cfg o s = .ok s') {n : Ident}
    (hg : n ∉ s.graph.nodes) (hf : n ∉ s.futures) :
    n ∉ s'.graph.nodes ∧ n ∉ s'.futures := by
  simp only [iterBody] at hok
  cases hp : prepPhase cfg o s with
  | error e => rw [hp] at hok; exact absurd hok (by simp [Except.bind])
  | ok s3 =>
    rw [hp] at hok
    simp only [Except.bind] at hok
    obtain ⟨hg3, hf3, _⟩ := prepPhase_facts hp
    have hg3' : n ∉ s3.graph.nodes := fun hc => hg (hg3 n hc)
    have hf3' : n ∉ s3.futures := hf3 ▸ hf
    obtain ⟨hgm, hfm⟩ := dispatchPhase_facts (prepPhase_InvS h hp)
      (prepPhase_runnable hp) hok
    refine ⟨fun hc => hg3' (hgm n hc), ?_⟩
    rcases hfm with hfe | ⟨hfe, hready⟩
    · rw [hfe]; exact hf3'
    · rw [hfe]
      intro hc
      rcases List.mem_append.mp hc with hc | hc
      · exact hf3' hc
      · obtain rfl := List.mem_singleton.mp hc
        exact hg3' (root_nodes_subset (mem_readySet.mp hready).1)

theorem runStates_persist {cfg : Config} {os : List IterOracle}
    {s : SchedState} (h : InvS cfg s) {n : Ident}
    (hg : n ∉ s.graph.nodes) (hf : n ∉ s.futures) :
    ∀ t ∈ runStates cfg os s, n ∉ t.graph.nodes ∧ n ∉ t.futures := by
  induction os generalizing s with
  | nil => intro t ht; exact absurd ht (List.not_mem_nil _)
  | cons o os ih =>
    intro t ht
    simp only [runStates] at ht
    split at ht
    · exact absurd ht (List.not_mem_nil _)
    · cases hi : iterBody cfg o s with
      | error e => rw [hi] at ht; exact absurd ht (List.not_mem_nil _)
      | ok s1 =>
        rw [hi] at ht
        obtain ⟨hg1, hf1⟩ := iterBody_persist h hi hg hf
        rcases List.mem_cons.mp ht with rfl | ht'
        · exact ⟨hg1, hf1⟩
        · exact ih (iterBody_InvS h hi) hg1 hf1 t ht'

/-- A node that is a root of the state's graph has every entry-graph
dependency already pre-executed or completed-and-reaped. -/
theorem ready_deps_done {cfg : Config} {s3 : SchedState} {n : Ident}
    (h : InvS cfg s3) (hroot : n ∈ root_nodes s3.graph) :
    ∀ e ∈ cfg.graph.edges, e.2 = n →
      (getNode (initXns cfg) e.1).executed = true ∨
      (e.1 ∈ s3.futures ∧ e.1 ∈ s3.doneIds ∧ e.1 ∉ s3.graph.nodes) := by
  obtain ⟨hrn, hrr⟩ := mem_root_nodes.mp hroot
  intro e he h2
  have hn2 : e.2 ∈ s3.graph.nodes := h2 ▸ hrn
  have hn1 : e.1 ∉ s3.graph.nodes := by
    intro hc
    exact hrr e (h.ginv.e2 e he hc hn2) h2
  rcases h.ginv.kinv e he hn2 with h' | h' | hfd
  · exact absurd h' hn1
  · exact Or.inl h'
  · exact Or.inr ⟨hfd.1, hfd.2, hn1⟩


/-! ## Wait-site error shapes -/

theorem blockPhase_error_shape {cfg : Config} {o : IterOracle}
    {s : SchedState} {e : TErr} (h : blockPhase cfg o s = .error e) :
    (get_num_running_threads (applyDone o.d0 s).futures
        (applyDone o.d0 s).doneIds = cfg.max_concurrency ∨
      (applyDone o.d0 s).runnable.length = 0) ∧
    (applyDone o.dW (applyDone o.d0 s)).runningVar.filter
      (fun i => decide (i ∈ (applyDone o.dW (applyDone o.d0 s)).doneIds))
      = [] ∧
    e = .tawaziTimeoutError
      ((applyDone o.dW (applyDone o.d0 s)).runningVar.filter
        (fun i => decide (i ∉ (applyDone o.dW (applyDone o.d0 s)).doneIds)))
      (get_next_timeout (applyDone o.d0 s).launch (applyDone o.d0 s).futures
        (applyDone o.d0 s).doneIds (applyDone o.d0 s).xns o.tW) := by
  simp only [blockPhase, raise_timeout_error_conditionally] at h
  split at h
  · next hguard =>
    split at h
    · next e1 heq =>
      split at heq
      · next hdn =>
        refine ⟨hguard, hdn, ?_⟩
        rw [← (Except.error.injEq _ _).mp h, ← (Except.error.injEq _ _).mp heq]
      · exact absurd heq (by simp)
    · exact absurd h (by simp)
  · exact absurd h (by simp)

theorem blockPhase_ok_ne_empty {cfg : Config} {o : IterOracle}
    {s s1 : SchedState} (h : blockPhase cfg o s = .ok s1)
    (hguard : get_num_running_threads (applyDone o.d0 s).futures
        (applyDone o.d0 s).doneIds = cfg.max_concurrency ∨
      (applyDone o.d0 s).runnable.length = 0) :
    (applyDone o.dW (applyDone o.d0 s)).runningVar.filter
      (fun i => decide (i ∈ (applyDone o.dW (applyDone o.d0 s)).doneIds))
      ≠ [] := by
  simp only [blockPhase, raise_timeout_error_conditionally] at h
  split at h
  · split at h
    · exact absurd h (by simp)
    · next heq =>
      split at heq
      · exact absurd heq (by simp)
      · next hdn => exact hdn
  · next hng => exact absurd hguard hng

theorem seqPreWait_error_shape {o : IterOracle} {s4 : SchedState} {e : TErr}
    (h : seqPreWait o s4 = .error e) :
    (applyDone o.dP s4).runningVar.filter
      (fun i => decide (i ∈ (applyDone o.dP s4).doneIds)) = [] ∧
    e = .tawaziTimeoutError
      ((applyDone o.dP s4).runningVar.filter
        (fun i => decide (i ∉ (applyDone o.dP s4).doneIds)))
      (get_next_timeout s4.launch s4.futures s4.doneIds s4.xns o.tP) := by
  simp only [seqPreWait, raise_timeout_error_conditionally] at h
  split at h
  · next e1 heq =>
    split at heq
    · next hdn =>
      refine ⟨hdn, ?_⟩
      rw [← (Except.error.injEq _ _).mp h, ← (Except.error.injEq _ _).mp heq]
    · exact absurd heq (by simp)
  · exact absurd h (by simp)

theorem seqPreWait_ok_ne_empty {o : IterOracle} {s4 s' : SchedState}
    (h : seqPreWait o s4 = .ok s') :
    (applyDone o.dP s4).runningVar.filter
      (fun i => decide (i ∈ (applyDone o.dP s4).doneIds)) ≠ [] := by
  simp only [seqPreWait, raise_timeout_error_conditionally] at h
  split at h
  · exact absurd h (by simp)
  · next heq =>
    split at heq
    · exact absurd heq (by simp)
    · next hdn => exact hdn

theorem seqPostWait_error_shape {o : IterOracle} {s6 : SchedState} {e : TErr}
    (h : seqPostWait o s6 = .error e) :
    (applyDone o.dQ s6).futures.filter
      (fun i => decide (i ∈ (applyDone o.dQ s6).doneIds)) = [] ∧
    e = .tawaziTimeoutError
      ((applyDone o.dQ s6).futures.filter
        (fun i => decide (i ∉ (applyDone o.dQ s6).doneIds)))
      (get_next_timeout s6.launch s6.futures s6.doneIds s6.xns o.tQ) := by
  simp only [seqPostWait, raise_timeout_error_conditionally] at h
  split at h
  · next e1 heq =>
    split at heq
    · next hdn =>
      refine ⟨hdn, ?_⟩
      rw [← (Except.error.injEq _ _).mp h, ← (Except.error.injEq _ _).mp heq]
    · exact absurd heq (by simp)
  · exact absurd h (by simp)

theorem seqPostWait_ok_ne_empty {o : IterOracle} {s6 s' : SchedState}
    (h : seqPostWait o s6 = .ok s') :
    (applyDone o.dQ s6).futures.filter
      (fun i => decide (i ∈ (applyDone o.dQ s6).doneIds)) ≠ [] := by
  simp only [seqPostWait, raise_timeout_error_conditionally] at h
  split at h
  · exact absurd h (by simp)
  · next heq =>
    split at heq
    · exact absurd heq (by simp)
    · next hdn => exact hdn


/-! ## Claim theorems -/

/-- C2: the claim that whenever a node with `is_sequential` is executing no
other node is executing is violated by the code.  In `cfgSeq`, node 0
completes in iteration 1; in iteration 2 the sequential node 1 (timeout 5)
is submitted with zero running futures, but its post-submission wait reaches
the deadline with node 1 still running — the completed-set of that wait
contains node 0's already-done future, so no `TawaziTimeoutError` is raised;
in iteration 3 node 2 is submitted while the sequential node 1 is still not
done (futures `[0,1,2]`, done `[0]`). -/
theorem C2_sequential_isolation_violated :
    (getNode (initXns cfgSeq) 1).is_sequential = true ∧
    (getNode (initXns cfgSeq) 1).timeout = some 5 ∧
    (runStates cfgSeq [o0, oSeq2, o0] (initState cfgSeq)).map
        (fun t => (t.futures, t.doneIds)) =
      [([0], []), ([0, 1], [0]), ([0, 1, 2], [0])] :=
  ⟨by decide, by decide, by decide⟩

/-- C9 (counterexample): the post-submission wait of the sequential node 1
reaches its computed deadline (`oSeq2.dQ = []`: nothing completes during the
wait) without node 1 completing, yet the iteration does not fail: the wait's
completed set contains the previously-done future of node 0, so
`raise_timeout_error_conditionally` does not raise. -/
theorem C9_counterexample :
    (getNode (initXns cfgSeq) 1).is_sequential = true ∧
    (getNode (initXns cfgSeq) 1).timeout = some 5 ∧
    oSeq2.dQ = [] ∧
    iterBody cfgSeq oSeq2 seqS1 = .ok seqS2 ∧
    seqS2.futures = [0, 1] ∧ (1 : Ident) ∉ seqS1.futures ∧
    (1 : Ident) ∉ seqS2.doneIds ∧ seqS2.doneIds = [0] :=
  ⟨by decide, by decide, by decide, by rfl, by decide, by decide,
   by decide, by decide⟩

/-- C1 (counterexample): in `cfgArg`, node 0 is a pre-executed input node and
a dependency of node 1 (edge `(0,1)`).  Node 1's `run` is invoked (node 1 is
submitted in the first iteration), yet node 0 never has a future: its run is
never invoked during the invocation, contradicting the claim that every
dependency of an invoked node has had its run invoked with its future done.
The invocation still terminates normally. -/
theorem C1_counterexample :
    (0, 1) ∈ cfgArg.graph.edges ∧
    (getNode (initXns cfgArg) 0).executed = true ∧
    (runStates cfgArg argOs (initState cfgArg)).map (fun t => t.futures) =
      [[1], [1]] ∧
    execute cfgArg argOs = .finished (finishedWith (execute cfgArg argOs)) :=
  ⟨by decide, by decide, by decide, by decide⟩

/-- C6: invoking the error handler with an error strategy outside
{strict, permissive, all_children} on a handle that carries an error fails
with the configuration-error kind (the source raises `NotImplementedError`,
the spec's `ConfigurationError`). -/
theorem C6_unknown_strategy_configuration_error (b : ErrorStrategy)
    (g : DiGraphEx) (i : Ident) (h1 : b ≠ .strict) (h2 : b ≠ .permissive)
    (h3 : b ≠ .all_children) :
    handle_exception b g true i = .error .configurationError := by
  cases b with
  | strict => exact absurd rfl h1
  | permissive => exact absurd rfl h2
  | all_children => exact absurd rfl h3
  | unknown c => rfl

/-- Witness for C6 at the concrete strategy value `unknown 0`. -/
theorem C6_witness :
    handle_exception (.unknown 0) ⟨[0], []⟩ true 0 =
      .error .configurationError :=
  C6_unknown_strategy_configuration_error (.unknown 0) ⟨[0], []⟩ 0
    (by decide) (by decide) (by decide)

/-- C10: an empty `modified_node_dict` is treated exactly as if it were
absent — Python's `or` falls through on the falsy empty dict — so the state
table is built by `copy_non_setup_xns` (setup nodes shared, others copied)
and the whole initial state coincides with the one built without a modified
table. -/
theorem C10_empty_modified_table (cfg : Config)
    (h : cfg.modified_node_dict = some []) :
    initXns cfg = copy_non_setup_xns cfg.node_dict ∧
    initState cfg = initState { cfg with modified_node_dict := none } := by
  constructor
  · rw [initXns, h]
    rfl
  · simp only [initState, initXns, h, pyOrTable]
    rfl

/-- Witness for C10 at the concrete configuration `cfgMod`. -/
theorem C10_witness :
    initXns cfgMod = copy_non_setup_xns cfgMod.node_dict ∧
    initState cfgMod = initState { cfgMod with modified_node_dict := none } :=
  C10_empty_modified_table cfgMod rfl

/-- C3: at every pick of the scheduler loop the chosen node is a member of
the ready set with maximal `priority`, and maximal `compound_priority` among
those of maximal priority; consequently a simultaneously-ready node of
strictly lower priority is not chosen.  The final conjunct ties the pick to
submission: any node newly submitted by the dispatch step is the pick of the
ready set (roots of the working graph minus submitted ids). -/
theorem C3_selection_rule (rxns : List ExecNode) (hne : rxns ≠ []) :
    pickNode rxns ∈ rxns ∧
    (∀ y ∈ rxns, y.priority ≤ (pickNode rxns).priority) ∧
    (∀ y ∈ rxns, y.priority = (pickNode rxns).priority →
      y.compound_priority ≤ (pickNode rxns).compound_priority) ∧
    (∀ x ∈ rxns, ∀ y ∈ rxns, y.priority < x.priority →
      y.priority < (pickNode rxns).priority) ∧
    (∀ (cfg : Config) (o : IterOracle) (s3 s' : SchedState),
      InvS cfg s3 → s3.runnable = readySet s3.graph s3.futures →
      dispatchPhase cfg o s3 = .ok s' → ∀ n, n ∈ s'.futures →
      n ∉ s3.futures →
      n = (pickNode (s3.runnable.map (getNode s3.xns))).id ∧
        n ∈ readySet s3.graph s3.futures) := by
  refine ⟨pickNode_mem hne, fun y hy => pickNode_priority_max hne hy,
    fun y hy hp => pickNode_compound_max hne hy hp, ?_, ?_⟩
  · intro x hx y hy hlt
    exact lt_of_lt_of_le hlt (pickNode_priority_max hne hx)
  · intro cfg o s3 s' hInv hrun hok n hn hnf
    obtain ⟨_, hfm⟩ := dispatchPhase_facts hInv hrun hok
    rcases hfm with hfe | ⟨hfe, hready⟩
    · exact absurd (hfe ▸ hn) hnf
    · rw [hfe] at hn
      rcases List.mem_append.mp hn with hc | hc
      · exact absurd hc hnf
      · obtain rfl := List.mem_singleton.mp hc
        exact ⟨rfl, hready⟩

/-- Witness for C3 at a concrete ready set: priorities 1, 1, 10 — the
priority-10 node is picked. -/
theorem C3_witness :
    pickNode [mkN 5 1 1 false none false 0, mkN 6 1 1 false none false 0,
      mkN 7 10 10 false none false 0] ∈
      [mkN 5 1 1 false none false 0, mkN 6 1 1 false none false 0,
       mkN 7 10 10 false none false 0] ∧
    (mkN 6 1 1 false none false 0).priority <
      (pickNode [mkN 5 1 1 false none false 0, mkN 6 1 1 false none false 0,
        mkN 7 10 10 false none false 0]).priority := by
  have h := C3_selection_rule
    [mkN 5 1 1 false none false 0, mkN 6 1 1 false none false 0,
     mkN 7 10 10 false none false 0] (by decide)
  refine ⟨h.1, ?_⟩
  exact h.2.2.2.1 (mkN 7 10 10 false none false 0) (by decide)
    (mkN 6 1 1 false none false 0) (by decide) (by decide)

/-- C4: `get_next_timeout` returns `none` iff no submitted, not-yet-done
node has a configured timeout; otherwise it returns the minimum over those
nodes of `launch_time + timeout`, minus the current monotonic reading. -/
theorem C4_next_timeout_spec (L : List (Ident × Int)) (fut dn : List Ident)
    (X : Table) (now : Int) :
    (get_next_timeout L fut dn X now = none ↔
      ∀ i ∈ fut, i ∉ dn → (getNode X i).timeout = none) ∧
    (∀ r, get_next_timeout L fut dn X now = some r →
      (∃ i ∈ fut, i ∉ dn ∧ ∃ t, (getNode X i).timeout = some t ∧
        r = ((L.lookup i).getD 0) + t - now) ∧
      (∀ i ∈ fut, i ∉ dn → ∀ t, (getNode X i).timeout = some t →
        r ≤ ((L.lookup i).getD 0) + t - now)) := by
  constructor
  · rw [get_next_timeout_eq]
    cases hm : minList? (timeoutCands L fut dn X) with
    | none =>
      rw [minList?_eq_none] at hm
      simp only [iff_true_intro rfl, true_iff]
      intro i hi hdn
      cases ht : (getNode X i).timeout with
      | none => rfl
      | some t =>
        have : ((L.lookup i).getD 0) + t ∈ timeoutCands L fut dn X :=
          mem_timeoutCands.mpr ⟨i, hi, hdn, t, ht, rfl⟩
        rw [hm] at this
        exact absurd this (List.not_mem_nil _)
    | some m =>
      obtain ⟨hmem, _⟩ := minList?_spec hm
      obtain ⟨i, hi, hdn, t, ht, _⟩ := mem_timeoutCands.mp hmem
      constructor
      · intro hc
        exact absurd hc (by simp)
      · intro hall
        exact absurd (hall i hi hdn) (by simp [ht])
  · intro r hr
    rw [get_next_timeout_eq] at hr
    cases hm : minList? (timeoutCands L fut dn X) with
    | none => rw [hm] at hr; exact absurd hr (by simp)
    | some m =>
      rw [hm] at hr
      obtain rfl : m - now = r := Option.some_inj.mp hr
      obtain ⟨hmem, hle⟩ := minList?_spec hm
      constructor
      · obtain ⟨i, hi, hdn, t, ht, hmi⟩ := mem_timeoutCands.mp hmem
        exact ⟨i, hi, hdn, t, ht, by rw [hmi]⟩
      · intro i hi hdn t ht
        have hc : ((L.lookup i).getD 0) + t ∈ timeoutCands L fut dn X :=
          mem_timeoutCands.mpr ⟨i, hi, hdn, t, ht, rfl⟩
        exact Int.sub_le_sub_right (hle _ hc) now

/-- Witness for C4: a single in-flight node with launch time 0 and timeout 5
at clock reading 2 yields a relative deadline attained at that node. -/
theorem C4_witness :
    ∃ i ∈ [(4 : Ident)], i ∉ ([] : List Ident) ∧
      ∃ t, (getNode [(4, mkN 4 0 0 false (some 5) false 1)] i).timeout =
        some t ∧
      (3 : Int) = ((([(4, (0 : Int))]).lookup i).getD 0) + t - 2 :=
  ((C4_next_timeout_spec [(4, 0)] [4] [] [(4, mkN 4 0 0 false (some 5)
    false 1)] 2).2 3 (by decide)).1


/-- C5: whenever one of the three blocking waits inside `execute` returns
with zero completed handles, the invocation fails with a
`TawaziTimeoutError` carrying the still-pending node ids and the waited
budget.  The first three conjuncts cover the block-if-saturated wait, the
sequentiality pre-wait and the sequentiality post-wait; the last two show
that such an error aborts the iteration and the whole invocation. -/
theorem C5_timeout_error_on_empty_wait :
    (∀ (cfg : Config) (o : IterOracle) (s : SchedState),
      (get_num_running_threads (applyDone o.d0 s).futures
          (applyDone o.d0 s).doneIds = cfg.max_concurrency ∨
        (applyDone o.d0 s).runnable.length = 0) →
      (applyDone o.dW (applyDone o.d0 s)).runningVar.filter
        (fun i => decide (i ∈ (applyDone o.dW (applyDone o.d0 s)).doneIds))
        = [] →
      blockPhase cfg o s = .error (.tawaziTimeoutError
        ((applyDone o.dW (applyDone o.d0 s)).runningVar.filter
          (fun i => decide (i ∉ (applyDone o.dW (applyDone o.d0 s)).doneIds)))
        (get_next_timeout (applyDone o.d0 s).launch (applyDone o.d0 s).futures
          (applyDone o.d0 s).doneIds (applyDone o.d0 s).xns o.tW))) ∧
    (∀ (o : IterOracle) (s4 : SchedState),
      (applyDone o.dP s4).runningVar.filter
        (fun i => decide (i ∈ (applyDone o.dP s4).doneIds)) = [] →
      seqPreWait o s4 = .error (.tawaziTimeoutError
        ((applyDone o.dP s4).runningVar.filter
          (fun i => decide (i ∉ (applyDone o.dP s4).doneIds)))
        (get_next_timeout s4.launch s4.futures s4.doneIds s4.xns o.tP))) ∧
    (∀ (o : IterOracle) (s6 : SchedState),
      (applyDone o.dQ s6).futures.filter
        (fun i => decide (i ∈ (applyDone o.dQ s6).doneIds)) = [] →
      seqPostWait o s6 = .error (.tawaziTimeoutError
        ((applyDone o.dQ s6).futures.filter
          (fun i => decide (i ∉ (applyDone o.dQ s6).doneIds)))
        (get_next_timeout s6.launch s6.futures s6.doneIds s6.xns o.tQ))) ∧
    (∀ (cfg : Config) (o : IterOracle) (s : SchedState) (e : TErr),
      blockPhase cfg o s = .error e → iterBody cfg o s = .error e) ∧
    (∀ (cfg : Config) (os : List IterOracle) (o : IterOracle) (s : SchedState)
      (e : TErr), s.graph.nodes.length ≠ 0 → iterBody cfg o s = .error e →
      runSched cfg (o :: os) s = .failed e) := by
  refine ⟨?_, ?_, ?_, ?_, ?_⟩
  · intro cfg o s hguard hdn
    cases hbp : blockPhase cfg o s with
    | ok s1 => exact absurd hdn (blockPhase_ok_ne_empty hbp hguard)
    | error e => rw [(blockPhase_error_shape hbp).2.2]
  · intro o s4 hdn
    cases hw : seqPreWait o s4 with
    | ok s' => exact absurd hdn (seqPreWait_ok_ne_empty hw)
    | error e => rw [(seqPreWait_error_shape hw).2]
  · intro o s6 hdn
    cases hw : seqPostWait o s6 with
    | ok s' => exact absurd hdn (seqPostWait_ok_ne_empty hw)
    | error e => rw [(seqPostWait_error_shape hw).2]
  · intro cfg o s e hb
    simp [iterBody, prepPhase, hb, Except.bind]
  · intro cfg os o s e hne hit
    simp only [runSched]
    rw [if_neg hne, hit]

/-- Witness for C5: a blocked state whose wait completes nothing — the
block-phase fails with a timeout error naming pending node 4 and budget 5
(node 4's launch time 0 plus timeout 5, minus clock reading 0). -/
theorem C5_witness :
    blockPhase cfgW o0 wBlocked =
      .error (.tawaziTimeoutError [4] (some 5)) := by
  have h := C5_timeout_error_on_empty_wait.1 cfgW o0 wBlocked (by decide)
    (by decide)
  exact h.trans (congrArg Except.error (by decide))

/-- C7: under the `all_children` policy, an errored completed node has every
transitive successor in the working graph removed via `remove_recursively`
(applied to each direct successor), after which the node itself is removed;
the handler does not abort.  Concretely, on the chain `0 → 1 → 2` with node
1 raising, the invocation returns a table in which node 0's result is
present and node 2's result is absent (node 2's run never raised; it simply
never ran). -/
theorem C7_all_children_prunes_descendants :
    (∀ (g : DiGraphEx) (i : Ident) (g' : DiGraphEx),
      handle_exception .all_children g true i = .ok g' →
      ∀ m, Relation.ReflTransGen (edgeRel g) i m →
        m ∉ (remove_node g' i).nodes) ∧
    (∀ (g : DiGraphEx) (i : Ident), ∃ g',
      handle_exception .all_children g true i = .ok g') ∧
    execute cfgChain chainOs = .finished chainTable ∧
    (getNode chainTable 0).result = some 7 ∧
    (getNode chainTable 2).result = none ∧
    (getNode chainTable 2).runRaises = false := by
  refine ⟨?_, ?_, by decide, by decide, by decide, by decide⟩
  · intro g i g' hok m hreach
    have hfold : handle_exception .all_children g true i =
        .ok ((successors g i).foldl remove_recursively g) := rfl
    obtain rfl : (successors g i).foldl remove_recursively g = g' :=
      (Except.ok.injEq _ _).mp (hfold.symm.trans hok)
    rcases Relation.ReflTransGen.cases_head hreach with rfl | ⟨c, hic, hcm⟩
    · intro hc
      exact (mem_remove_node_nodes.mp hc).2 rfl
    · have hcs : c ∈ successors g i := by
        simp only [successors, List.mem_map]
        exact ⟨(i, c), List.mem_filter.mpr ⟨hic, by simp⟩, rfl⟩
      intro hc
      exact fold_rr_complete hcs hcm (mem_remove_node_nodes.mp hc).1
  · intro g i
    exact ⟨(successors g i).foldl remove_recursively g, rfl⟩

/-- Witness for C7: on the working graph `1 → 2` with node 1 errored, node 2
(the transitive successor) is removed. -/
theorem C7_witness : (2 : Ident) ∉ (remove_node g7' 1).nodes :=
  C7_all_children_prunes_descendants.1 g7 1 g7' rfl 2
    (Relation.ReflTransGen.single (by decide))


/-- C9 (amended): when a sequential node has been submitted, the
post-submission wait over all current handles raises a `TawaziTimeoutError`
only when no submitted handle at all is done after the wait; any previously
completed handle makes the wait's completed set nonempty, so no error is
raised even though the sequential node overran its deadline (the original
claim — error semantics identical to the block-if-saturated step — fails,
see the counterexample). -/
theorem C9_amended_post_wait (o : IterOracle) (s6 : SchedState) :
    ((applyDone o.dQ s6).futures.filter
        (fun i => decide (i ∈ (applyDone o.dQ s6).doneIds)) = [] →
      seqPostWait o s6 = .error (.tawaziTimeoutError
        ((applyDone o.dQ s6).futures.filter
          (fun i => decide (i ∉ (applyDone o.dQ s6).doneIds)))
        (get_next_timeout s6.launch s6.futures s6.doneIds s6.xns o.tQ))) ∧
    ((applyDone o.dQ s6).futures.filter
        (fun i => decide (i ∈ (applyDone o.dQ s6).doneIds)) ≠ [] →
      ∃ s', seqPostWait o s6 = .ok s') := by
  constructor
  · intro hdn
    cases hw : seqPostWait o s6 with
    | ok s' => exact absurd hdn (seqPostWait_ok_ne_empty hw)
    | error e => rw [(seqPostWait_error_shape hw).2]
  · intro hdn
    cases hw : seqPostWait o s6 with
    | ok s' => exact ⟨s', rfl⟩
    | error e => exact absurd (seqPostWait_error_shape hw).1 hdn

/-- Witness for C9: with one already-done handle the post-wait succeeds (no
error, although the pending sequential node 4 has a configured timeout);
with no done handle at all it raises. -/
theorem C9_witness :
    (∃ s', seqPostWait o0 wMixed = .ok s') ∧
    seqPostWait o0 wBlocked = .error (.tawaziTimeoutError [4] (some 5)) := by
  refine ⟨(C9_amended_post_wait o0 wMixed).2 (by decide), ?_⟩
  exact ((C9_amended_post_wait o0 wBlocked).1 (by decide)).trans
    (congrArg Except.error (by decide))

/-- C8: if the picked node's `active` evaluates false, the scheduler removes
it via `remove_recursively` and continues: the node is never submitted, no
transitive descendant of it in the working graph is ever submitted (they
are all removed with it), the futures table is unchanged by the iteration,
and in every later state of the run neither the node nor any such descendant
appears in the futures table. -/
theorem C8_inactive_prune (cfg : Config) (o : IterOracle) (s3 s' : SchedState)
    (hInv : InvS cfg s3)
    (hrun : s3.runnable = readySet s3.graph s3.futures)
    (hne : s3.runnable.length ≠ 0)
    (hnoseq : ¬((pickNode (s3.runnable.map (getNode s3.xns))).is_sequential
        = true ∧
      get_num_running_threads (applyDone o.d2 s3).futures
        (applyDone o.d2 s3).doneIds ≠ 0))
    (hinact : xn_active_in_call (pickNode (s3.runnable.map (getNode s3.xns)))
      (applyDone o.d3 (applyDone o.d2 s3)).xns = false)
    (hok : dispatchPhase cfg o s3 = .ok s') :
    s'.graph = remove_recursively s3.graph
      (pickNode (s3.runnable.map (getNode s3.xns))).id ∧
    s'.futures = s3.futures ∧
    (pickNode (s3.runnable.map (getNode s3.xns))).id ∉ s'.futures ∧
    (pickNode (s3.runnable.map (getNode s3.xns))).id ∉ s'.graph.nodes ∧
    (∀ d, Relation.ReflTransGen (edgeRel s3.graph)
        (pickNode (s3.runnable.map (getNode s3.xns))).id d →
      d ∉ s'.graph.nodes ∧ d ∉ s'.futures) ∧
    (∀ os, ∀ t ∈ runStates cfg os s',
      (pickNode (s3.runnable.map (getNode s3.xns))).id ∉ t.futures ∧
      ∀ d, Relation.ReflTransGen (edgeRel s3.graph)
          (pickNode (s3.runnable.map (getNode s3.xns))).id d →
        d ∉ t.futures) := by
  have hInv' : InvS cfg s' := dispatchPhase_InvS hInv hrun hok
  have hids : ∀ i ∈ s3.runnable, (getNode s3.xns i).id = i := by
    intro i hi
    rw [hrun] at hi
    exact hInv.idsOk i (root_nodes_subset (mem_readySet.mp hi).1)
  have hready : (pickNode (s3.runnable.map (getNode s3.xns))).id ∈
      readySet s3.graph s3.futures := by
    rw [← hrun]
    exact pickNode_id_mem hne hids
  obtain ⟨hroot, hnf⟩ := mem_readySet.mp hready
  rcases dispatchPhase_ok_cases hok with ⟨hz, _⟩ | ⟨_, hseq, _⟩ |
    ⟨_, hact, hs'⟩ | ⟨_, hact, _⟩
  · exact absurd hz hne
  · exact absurd hseq hnoseq
  · subst hs'
    have hg : ({ applyDone o.d3 (applyDone o.d2 s3) with
        graph := remove_recursively (applyDone o.d3 (applyDone o.d2 s3)).graph
          (pickNode (s3.runnable.map (getNode s3.xns))).id } :
        SchedState).graph = remove_recursively s3.graph
          (pickNode (s3.runnable.map (getNode s3.xns))).id := rfl
    have hdesc : ∀ d, Relation.ReflTransGen (edgeRel s3.graph)
        (pickNode (s3.runnable.map (getNode s3.xns))).id d →
        d ∉ (remove_recursively s3.graph
          (pickNode (s3.runnable.map (getNode s3.xns))).id).nodes ∧
        d ∉ s3.futures := by
      intro d hreach
      refine ⟨remove_recursively_complete hreach, ?_⟩
      rcases Relation.ReflTransGen.cases_tail hreach with rfl | ⟨b, _, hbd⟩
      · exact hnf
      · intro hd
        exact hInv.ginv.noInc d hd (b, d) hbd rfl
    refine ⟨hg, rfl, hnf, ?_, ?_, ?_⟩
    · rw [hg]
      exact remove_recursively_complete Relation.ReflTransGen.refl
    · intro d hreach
      exact (hdesc d hreach)
    · intro os t ht
      constructor
      · exact (runStates_persist hInv'
          (by rw [hg]
              exact remove_recursively_complete Relation.ReflTransGen.refl)
          hnf t ht).2
      · intro d hreach
        exact (runStates_persist hInv' (hdesc d hreach).1 (hdesc d hreach).2
          t ht).2
  · exact absurd hinact hact

/-- Witness for C8 at the gate scenario: node 3 (`active = lit false`) and
its dependent 4 never enter the futures table; both leave the graph. -/
theorem C8_witness :
    (3 : Ident) ∉ gateS'.futures ∧ (4 : Ident) ∉ gateS'.graph.nodes ∧
      (4 : Ident) ∉ gateS'.futures := by
  have h := C8_inactive_prune cfgGate o0 (initState cfgGate) gateS'
    (initState_InvS (by decide) (by decide)) (by decide) (by decide)
    (by decide) (by decide) rfl
  have hd := h.2.2.2.2.1 4 (Relation.ReflTransGen.single (by decide))
  exact ⟨h.2.2.1, hd.1, hd.2⟩

/-- C1 (amended): throughout every run, every dependency of a node whose
`run` was invoked (a submitted node) was either removed during input
preconditioning because its entry was already executed, or had its own run
invoked and completed — its future done and the node reaped from the
working graph.  A node is submitted only when it is a root of the working
graph and not already in the futures table, and at the moment of
submission (the dispatch step) each of its dependencies is already done and
reaped, or was pre-executed at entry.  (The unamended claim fails for
pre-executed dependencies, whose run is never invoked; see the
counterexample.) -/
theorem C1_amended_topological_order (cfg : Config)
    (hWF : ∀ e ∈ cfg.graph.edges,
      e.1 ∈ cfg.graph.nodes ∧ e.2 ∈ cfg.graph.nodes)
    (hIds : ∀ i ∈ cfg.graph.nodes, (getNode (initXns cfg) i).id = i) :
    (∀ os, ∀ t ∈ runStates cfg os (initState cfg),
      ∀ n ∈ t.futures, ∀ e ∈ cfg.graph.edges, e.2 = n →
        (getNode (initXns cfg) e.1).executed = true ∨
        (e.1 ∈ t.futures ∧ e.1 ∈ t.doneIds ∧ e.1 ∉ t.graph.nodes)) ∧
    (∀ (o : IterOracle) (s3 s' : SchedState) (n : Ident), InvS cfg s3 →
      s3.runnable = readySet s3.graph s3.futures →
      dispatchPhase cfg o s3 = .ok s' → n ∈ s'.futures → n ∉ s3.futures →
      n ∈ root_nodes s3.graph ∧
      ∀ e ∈ cfg.graph.edges, e.2 = n →
        (getNode (initXns cfg) e.1).executed = true ∨
        (e.1 ∈ s3.futures ∧ e.1 ∈ s3.doneIds ∧ e.1 ∉ s3.graph.nodes)) := by
  constructor
  · intro os t ht
    exact (runStates_InvS (initState_InvS hWF hIds) t ht).minv
  · intro o s3 s' n hInv hrun hok hn hnf
    obtain ⟨_, hfm⟩ := dispatchPhase_facts hInv hrun hok
    rcases hfm with hfe | ⟨hfe, hready⟩
    · exact absurd (hfe ▸ hn) hnf
    · rw [hfe] at hn
      rcases List.mem_append.mp hn with hc | hc
      · exact absurd hc hnf
      · obtain rfl := List.mem_singleton.mp hc
        obtain ⟨hroot, _⟩ := mem_readySet.mp hready
        exact ⟨hroot, ready_deps_done hInv hroot⟩

/-- Witness for C1 at `cfgArg`: after the run, the submitted node 1's sole
dependency 0 satisfies the disjunction — here through its pre-executed
entry. -/
theorem C1_witness :
    (getNode (initXns cfgArg) 0).executed = true ∨
    ((0 : Ident) ∈ argS2.futures ∧ (0 : Ident) ∈ argS2.doneIds ∧
      (0 : Ident) ∉ argS2.graph.nodes) :=
  (C1_amended_topological_order cfgArg (by decide) (by decide)).1 argOs
    argS2 (by decide) 1 (by decide) (0, 1) (by decide) rfl

end Tawazi
